import Mathlib

/-!
Verification development for the Autobot content-extraction pipeline.

The definitions below are a shallow embedding of the extraction module
(`utils/extract.ts`, unified-walker version), the image materialization step
(`processExtractedContent` in the card module), and the capture-time
hide/restore discipline (`utils/capture.ts`).  DOM trees are modelled as a
nested inductive; strings are Lean `String`s (lists of characters), and the
JavaScript regex pipeline of `extractContent` is modelled by explicit
character-list scanners with the same leftmost, non-overlapping semantics.
Asynchronous effects (image fetch / blob store) are modelled by an explicit
per-image outcome, mirroring the per-image try/catch of the source.
-/

/-! ## Character and string utilities -/

/-- The left-brace character, written via its code point. -/
def braceChar : Char := Char.ofNat 123

/-- The double-quote character. -/
def dquoteChar : Char := Char.ofNat 34

/-- The single-quote character. -/
def squoteChar : Char := Char.ofNat 39

/-- Whitespace set used by `trim`: space, tab, newline, carriage return,
vertical tab, form feed (the ASCII part of the JavaScript `trim` set). -/
def isWsC (c : Char) : Bool :=
  c = ' ' || c = '\t' || c = '\n' || c = '\r' || c = '\x0b' || c = '\x0c'

/-- Drop trailing whitespace characters (keeps the output a prefix of the input). -/
def dropTrailWs : List Char → List Char
  | [] => []
  | c :: rest =>
    let r := dropTrailWs rest
    if r = [] ∧ isWsC c then [] else c :: r

/-- `trim` on character lists: drop leading then trailing whitespace. -/
def trimL (l : List Char) : List Char :=
  dropTrailWs (l.dropWhile isWsC)

/-- `String.trim` as used by the source (`.trim()` calls). -/
def trimS (s : String) : String := ⟨trimL s.data⟩

/-- `a.startsWith(p)`. -/
def startsWithS (a p : String) : Bool := p.data.isPrefixOf a.data

/-- `Array.prototype.join(sep)` on character lists. -/
def joinSepL (sep : List Char) : List (List Char) → List Char
  | [] => []
  | [x] => x
  | x :: y :: xs => x ++ sep ++ joinSepL sep (y :: xs)

/-- `Array.prototype.join(sep)` on strings. -/
def joinSep (sep : String) (l : List String) : String :=
  ⟨joinSepL sep.data (l.map String.data)⟩

/-- `String.prototype.replace` with a plain-string pattern: replaces the
leftmost occurrence only (JavaScript semantics, including the empty-pattern
case which inserts at the front). -/
def replaceFirstL (pat rep : List Char) : List Char → List Char
  | [] => if pat.isPrefixOf ([] : List Char) then rep else []
  | c :: rest =>
    if pat.isPrefixOf (c :: rest) then rep ++ (c :: rest).drop pat.length
    else c :: replaceFirstL pat rep rest

/-- `s.replace(pat, rep)` (first occurrence only) on strings. -/
def replaceFirstS (s pat rep : String) : String :=
  ⟨replaceFirstL pat.data rep.data s.data⟩

/-- Substring occurrence test on character lists. -/
def containsL (pat : List Char) : List Char → Bool
  | [] => pat.isPrefixOf ([] : List Char)
  | c :: rest => pat.isPrefixOf (c :: rest) || containsL pat rest

/-- `s.includes(pat)`. -/
def containsStr (s pat : String) : Bool := containsL pat.data s.data

/-- The regex `/^["']|["']$/g` applied to `s`: remove one leading and one
trailing quote character. -/
def stripQuotes (s : String) : String :=
  let l :=
    match s.data with
    | c :: rest => if c = dquoteChar ∨ c = squoteChar then rest else c :: rest
    | [] => []
  ⟨match l.getLast? with
   | some c => if c = dquoteChar ∨ c = squoteChar then l.dropLast else l
   | none => l⟩

/-! ### The normalization pipeline of `extractContent`

`parts.join(' ')` followed by the five global regex replacements and `trim`:
`/[ \t]+/g → ' '`, `/ ?\n ?/g → '\n'`, `/\n{3,}/g → '\n\n'`,
`/\n\n/g → '<br><br>'`, `/\n/g → '<br>'`. -/

/-- `/[ \t]+/g → ' '`: collapse runs of spaces and tabs to a single space.
The boolean state records whether we are inside a run. -/
def collapseWsAux : Bool → List Char → List Char
  | _, [] => []
  | inRun, c :: rest =>
    if c = ' ' ∨ c = '\t' then
      if inRun then collapseWsAux true rest else ' ' :: collapseWsAux true rest
    else c :: collapseWsAux false rest

def collapseWs (l : List Char) : List Char := collapseWsAux false l

/-- `/ ?\n ?/g → '\n'`: drop a single space on either side of each newline
(leftmost, non-overlapping matches, exactly as the global regex scans). -/
def cleanNl : List Char → List Char
  | ' ' :: '\n' :: ' ' :: rest => '\n' :: cleanNl rest
  | ' ' :: '\n' :: rest => '\n' :: cleanNl rest
  | '\n' :: ' ' :: rest => '\n' :: cleanNl rest
  | '\n' :: rest => '\n' :: cleanNl rest
  | c :: rest => c :: cleanNl rest
  | [] => []

/-- `/\n{3,}/g → '\n\n'`: cap runs of newlines at two.  `seen` counts the
newlines already emitted for the current run. -/
def capNlAux : Nat → List Char → List Char
  | _, [] => []
  | seen, c :: rest =>
    if c = '\n' then
      if seen < 2 then '\n' :: capNlAux (seen + 1) rest else capNlAux seen rest
    else c :: capNlAux 0 rest

def capNl (l : List Char) : List Char := capNlAux 0 l

/-- `/\n\n/g → '<br><br>'` (leftmost, non-overlapping). -/
def para : List Char → List Char
  | '\n' :: '\n' :: rest => '<' :: 'b' :: 'r' :: '>' :: '<' :: 'b' :: 'r' :: '>' :: para rest
  | c :: rest => c :: para rest
  | [] => []

/-- `/\n/g → '<br>'`. -/
def lineBr : List Char → List Char
  | [] => []
  | '\n' :: rest => '<' :: 'b' :: 'r' :: '>' :: lineBr rest
  | c :: rest => c :: lineBr rest

/-- The complete cleanup applied by `extractContent` to the accumulated
fragment sequence: join with single spaces, collapse horizontal whitespace,
clean spaces around newlines, cap newline runs at two, turn double newlines
into `<br><br>`, remaining newlines into `<br>`, then trim. -/
def normalizeParts (parts : List String) : String :=
  ⟨trimL (lineBr (para (capNl (cleanNl (collapseWs (joinSepL [' '] (parts.map String.data)))))))⟩

/-! ## The DOM model

`Node.elem tag classes attrs children` models an `HTMLElement` with its
(uppercase, as `tagName` reports for HTML documents) tag, `classList`,
attribute map and child nodes.  `Node.text` is a text node, `Node.other`
covers the remaining node kinds (comments, non-HTML elements), which the
walker ignores.  Computed style is outside the DOM; the one computed-style
read of the source (`::before` content of `mjx-c` glyph elements) is modelled
as the pseudo-attribute `computed-before-content`, absent meaning `none`. -/

inductive Node where
  | text (s : String)
  | other
  | elem (tag : String) (classes : List String) (attrs : List (String × String)) (children : List Node)
deriving Repr

mutual
/-- Number of nodes of a tree (used as recursion fuel for the walker). -/
def nsize : Node → Nat
  | .text _ => 1
  | .other => 1
  | .elem _ _ _ ch => nsizeL ch + 1

def nsizeL : List Node → Nat
  | [] => 0
  | n :: ns => nsize n + nsizeL ns
end

/-- Direct children of an element (empty for non-elements). -/
def childrenOf : Node → List Node
  | .elem _ _ _ ch => ch
  | _ => []

/-- `node instanceof HTMLElement`. -/
def isElemB : Node → Bool
  | .elem _ _ _ _ => true
  | _ => false

/-- `node.tagName` (empty for non-elements). -/
def tagOf : Node → String
  | .elem t _ _ _ => t
  | _ => ""

/-- `node.tagName.toLowerCase()`; CSS tag selectors also match via this. -/
def tagLowerOf (n : Node) : String := ⟨(tagOf n).data.map Char.toLower⟩

/-- Exact `tagName` comparison (`node.tagName === 'TABLE'` etc.). -/
def isTag (n : Node) (t : String) : Bool := tagOf n = t

/-- `node.getAttribute(name)`: `none` models `null`. -/
def getAttrN (n : Node) (name : String) : Option String :=
  match n with
  | .elem _ _ attrs _ => (attrs.find? (fun p => p.1 = name)).map (·.2)
  | _ => none

/-- Attribute value filtered through JavaScript truthiness (`if (val)`). -/
def truthyAttr (n : Node) (name : String) : Option String :=
  match getAttrN n name with
  | some v => if v = "" then none else some v
  | none => none

/-- `node.classList.contains(c)`. -/
def hasClass (n : Node) (c : String) : Bool :=
  match n with
  | .elem _ classes _ _ => classes.contains c
  | _ => false

/-- `node.id` (empty string when absent, as in the DOM). -/
def idOf (n : Node) : String := (getAttrN n "id").getD ""

/-- The modelled `getComputedStyle(node, '::before').content` value. -/
def computedBefore (n : Node) : String :=
  (getAttrN n "computed-before-content").getD "none"

mutual
/-- `node.textContent`: concatenation of all descendant text nodes. -/
def textContent : Node → String
  | .text s => s
  | .other => ""
  | .elem _ _ _ ch => textContentL ch

def textContentL : List Node → String
  | [] => ""
  | n :: ns => textContent n ++ textContentL ns
end

mutual
/-- All strict descendants of a node, in document (preorder) order.  This is
the search space of `querySelector`/`querySelectorAll` on the node. -/
def desc : Node → List Node
  | .elem _ _ _ ch => descL ch
  | _ => []

def descL : List Node → List Node
  | [] => []
  | n :: ns => n :: (desc n ++ descL ns)
end

/-- `node.querySelectorAll(sel)` for a predicate: all matching strict
descendants in document order. -/
def allDesc (p : Node → Bool) (n : Node) : List Node := (desc n).filter p

/-- `node.querySelector(sel)` for a predicate: first matching strict
descendant in document order. -/
def findDescN (p : Node → Bool) (n : Node) : Option Node := (desc n).find? p

/-- Rows of a table, as selected by
`':scope > tbody > tr, :scope > thead > tr, :scope > tr'` (document order). -/
def tableRows (t : Node) : List Node :=
  ((childrenOf t).map (fun c =>
    if isTag c "TR" then [c]
    else if isTag c "TBODY" ∨ isTag c "THEAD" then (childrenOf c).filter (fun g => isTag g "TR")
    else [])).flatten

/-- Cells of a row, as selected by `':scope > td, :scope > th'`. -/
def rowCells (r : Node) : List Node :=
  (childrenOf r).filter (fun c => isTag c "TD" ∨ isTag c "TH")

/-- Items of a list element, as selected by `':scope > li'`. -/
def listItems (l : Node) : List Node :=
  (childrenOf l).filter (fun c => isTag c "LI")

/-- All `td` descendants (`node.querySelectorAll('td')`). -/
def tdDesc (n : Node) : List Node := allDesc (fun c => tagLowerOf c = "td") n

/-! ## Extraction data model (from `extract.ts`) -/

/-- `MathSource`: a TeX string or a raw MathML string. -/
inductive MType where
  | tex
  | mathml
deriving Repr, DecidableEq

structure MathSource where
  type : MType
  value : String
deriving Repr, DecidableEq

/-- `ImageRef` entries of `ExtractResult.images`. -/
structure ImageRef where
  placeholder : String
  src : String
deriving Repr, DecidableEq

/-- `ExtractResult`. -/
structure ExtractResult where
  content : String
  images : List ImageRef
deriving Repr, DecidableEq

/-- The image placeholder for 0-based discovery index `i`. -/
def mkPh (i : Nat) : String := "\x7b\x7bIMG_" ++ toString i ++ "\x7d\x7d"

inductive LabelFormat where
  | paren
  | dot
  | bracket
deriving Repr, DecidableEq

inductive BlockMathFormat where
  | simple
  | newlines
deriving Repr, DecidableEq

/-- `WalkConfig` of the unified walker. -/
structure WalkConfig where
  blockMathFormat : BlockMathFormat
  handleLists : Bool
  handleBlockElements : Bool
  choicesConfig : Option LabelFormat
  skipChoicesTable : Bool
deriving Repr, DecidableEq

/-- `CELL_CONFIG`. -/
def CELL_CONFIG : WalkConfig :=
  { blockMathFormat := .simple, handleLists := false, handleBlockElements := false,
    choicesConfig := none, skipChoicesTable := false }

/-- `LIST_ITEM_CONFIG`. -/
def LIST_ITEM_CONFIG : WalkConfig :=
  { blockMathFormat := .simple, handleLists := true, handleBlockElements := false,
    choicesConfig := none, skipChoicesTable := false }

/-- The mutable state threaded through the walk: the fragment sink (`parts`),
the image sink (`images`) and the math counter (`mathCountRef`). -/
structure WalkState where
  parts : List String
  images : List ImageRef
  mathCount : Nat
deriving Repr, DecidableEq

/-- `parts.push(s)`. -/
def pushPart (st : WalkState) (s : String) : WalkState :=
  { st with parts := st.parts ++ [s] }

/-- Predicate of the `querySelector('mjx-container[data-tex]')` (resp.
`data-mathml`) searches inside `getTexSource`. -/
def mjxWithAttr (name : String) (c : Node) : Bool :=
  tagLowerOf c = "mjx-container" && (getAttrN c name).isSome

/-- `script[type="math/tex"], script[type="math/tex; mode=display"]`. -/
def isMathTexScript (p : Node) : Bool :=
  tagLowerOf p = "script" &&
    ((getAttrN p "type") = some "math/tex" || (getAttrN p "type") = some "math/tex; mode=display")

/-- The `.mjpage` wrapper search of `getTexSource`: the first descendant
`mjx-container` carrying the attribute, and its (truthy) value. -/
def mjpageChildAttr (name : String) (n : Node) : Option String :=
  if hasClass n "mjpage" then
    match findDescN (mjxWithAttr name) n with
    | some c => truthyAttr c name
    | none => none
  else none

/-- `getTexSource(container)` from the unified extractor.  `prev` is the
container's `previousElementSibling` (when known from the surrounding
traversal; `none` when the container is a traversal root). -/
def getTexSource (n : Node) (prev : Option Node) : Option MathSource :=
  match mjpageChildAttr "data-tex" n with
  | some t => some ⟨.tex, t⟩
  | none =>
    match mjpageChildAttr "data-mathml" n with
    | some m => some ⟨.mathml, m⟩
    | none =>
      match truthyAttr n "data-tex" with
      | some t => some ⟨.tex, t⟩
      | none =>
        match truthyAttr n "data-mathml" with
        | some m => some ⟨.mathml, m⟩
        | none =>
          match prev with
          | some p =>
            if isMathTexScript p then
              if textContent p = "" then none else some ⟨.tex, textContent p⟩
            else none
          | none => none

/-- `node.tagName.toLowerCase() === 'mjx-container' || node.classList.contains('mjpage')`. -/
def isMathJaxB (n : Node) : Bool :=
  tagLowerOf n = "mjx-container" || hasClass n "mjpage"

/-- One child of a `.selectListOption` inside `extractSelectListContent`:
text children contribute their trimmed text (when non-empty), math children
their resolved source (or raw text), other elements their trimmed text
content.  The accumulator tracks the collected parts, the previous element
sibling, and the math count. -/
def optChildStep (a : List String × Option Node × Nat) (child : Node) :
    List String × Option Node × Nat :=
  match child with
  | .text s => ((if trimS s ≠ "" then a.1 ++ [trimS s] else a.1), a.2.1, a.2.2)
  | .other => a
  | .elem _ _ _ _ =>
    if isMathJaxB child then
      match getTexSource child a.2.1 with
      | some src =>
        (a.1 ++ [(match src.type with
          | .mathml => src.value
          | .tex => "\\(" ++ src.value ++ "\\)")], some child, a.2.2 + 1)
      | none => (a.1 ++ [textContent child], some child, a.2.2)
    else (a.1 ++ [trimS (textContent child)], some child, a.2.2)

/-- The option text of one `.selectListOption` (joined with the empty
separator and trimmed), together with its math count. -/
def selectListOptText (opt : Node) : String × Nat :=
  (trimS (String.join ((childrenOf opt).foldl optChildStep ([], none, 0)).1),
    ((childrenOf opt).foldl optChildStep ([], none, 0)).2.2)

/-- Accumulation over the option elements: non-empty option texts are kept. -/
def selectListAccStep (acc : List String × Nat) (opt : Node) : List String × Nat :=
  ((if (selectListOptText opt).1 ≠ "" then acc.1 ++ [(selectListOptText opt).1] else acc.1),
    acc.2 + (selectListOptText opt).2)

/-- `extractSelectListContent(selectList, mathCountRef)`: returns the
formatted option text (inline `opt1/opt2` when every option is shorter than
5 characters, `_________ (opt1 / opt2)` otherwise, `_________` when there
are no options) and the number of math expressions resolved. -/
def extractSelectListContent (n : Node) : String × Nat :=
  let acc := (allDesc (fun c => hasClass c "selectListOption") n).foldl selectListAccStep ([], 0)
  if acc.1 = [] then ("_________", acc.2)
  else if acc.1.all (fun o => o.length < 5) then (joinSep "/" acc.1, acc.2)
  else ("_________ (" ++ joinSep " / " acc.1 ++ ")", acc.2)

/-- The native `<select>` branch of the walker: collect the trimmed,
non-empty `<option>` texts and format them. -/
def selectText (n : Node) : String :=
  let optionTexts :=
    ((allDesc (fun c => tagLowerOf c = "option") n).map (fun o => trimS (textContent o))).filter
      (fun t => t ≠ "")
  if optionTexts = [] then "_________"
  else if optionTexts.all (fun o => o.length < 5) then
    "_________ (" ++ joinSep "/" optionTexts ++ ")"
  else "_________ (" ++ joinSep " / " optionTexts ++ ")"

/-- `buildTableAttrs(table)`: the original `style` verbatim plus the
allow-listed structural attributes, nothing else. -/
def buildTableAttrs (t : Node) : String :=
  let a0 := match truthyAttr t "style" with
    | some s => " style=\"" ++ s ++ "\""
    | none => ""
  ["rules", "cellpadding", "cellspacing", "border", "align"].foldl
    (fun acc name =>
      match truthyAttr t name with
      | some v => acc ++ " " ++ name ++ "=\"" ++ v ++ "\""
      | none => acc) a0

/-- `buildCellAttrs(cell)`. -/
def buildCellAttrs (c : Node) : String :=
  let a0 := match truthyAttr c "style" with
    | some s => " style=\"" ++ s ++ "\""
    | none => ""
  ["colspan", "rowspan", "align", "valign"].foldl
    (fun acc name =>
      match truthyAttr c name with
      | some v => acc ++ " " ++ name ++ "=\"" ++ v ++ "\"" 
      | none => acc) a0

/-- One cell of `processTable`: serialize the cell tag with its preserved
attributes around the extracted cell content. -/
def tableCellStep (cellfn : Node → List ImageRef → Nat → String × List ImageRef × Nat)
    (a : String × List ImageRef × Nat) (cell : Node) : String × List ImageRef × Nat :=
  ((a.1 ++ "<" ++ tagLowerOf cell ++ buildCellAttrs cell ++ ">" ++
      (cellfn cell a.2.1 a.2.2).1 ++ "</" ++ tagLowerOf cell ++ ">"),
    (cellfn cell a.2.1 a.2.2).2.1, (cellfn cell a.2.1 a.2.2).2.2)

/-- The `<tr>` open tag, preserving the row's `style` attribute if present. -/
def rowOpenTag (row : Node) : String :=
  match truthyAttr row "style" with
  | some s => "<tr style=\"" ++ s ++ "\">"
  | none => "<tr>"

/-- One row of `processTable`. -/
def tableRowStep (cellfn : Node → List ImageRef → Nat → String × List ImageRef × Nat)
    (acc : String × List ImageRef × Nat) (row : Node) : String × List ImageRef × Nat :=
  (((rowCells row).foldl (tableCellStep cellfn) (acc.1 ++ rowOpenTag row, acc.2.1, acc.2.2)).1
      ++ "</tr>",
    ((rowCells row).foldl (tableCellStep cellfn) (acc.1 ++ rowOpenTag row, acc.2.1, acc.2.2)).2.1,
    ((rowCells row).foldl (tableCellStep cellfn) (acc.1 ++ rowOpenTag row, acc.2.1, acc.2.2)).2.2)

/-- `processTable`, parameterized by the cell-content extractor (which is the
walker at one fuel step less, or the top-level `extractCellContent`). -/
def processTableCore (cellfn : Node → List ImageRef → Nat → String × List ImageRef × Nat)
    (t : Node) (imgs0 : List ImageRef) (mc0 : Nat) : String × List ImageRef × Nat :=
  (((tableRows t).foldl (tableRowStep cellfn)
      ("<table" ++ buildTableAttrs t ++ ">", imgs0, mc0)).1 ++ "</table>",
    ((tableRows t).foldl (tableRowStep cellfn)
      ("<table" ++ buildTableAttrs t ++ ">", imgs0, mc0)).2.1,
    ((tableRows t).foldl (tableRowStep cellfn)
      ("<table" ++ buildTableAttrs t ++ ">", imgs0, mc0)).2.2)

/-- One item of `processList`. -/
def listItemStep (itemfn : Node → List ImageRef → Nat → String × List ImageRef × Nat)
    (acc : String × List ImageRef × Nat) (item : Node) : String × List ImageRef × Nat :=
  ((acc.1 ++ "<li>" ++ (itemfn item acc.2.1 acc.2.2).1 ++ "</li>"),
    (itemfn item acc.2.1 acc.2.2).2.1, (itemfn item acc.2.1 acc.2.2).2.2)

/-- `processList`, parameterized by the item-content extractor. -/
def processListCore (itemfn : Node → List ImageRef → Nat → String × List ImageRef × Nat)
    (l : Node) (imgs0 : List ImageRef) (mc0 : Nat) : String × List ImageRef × Nat :=
  (((listItems l).foldl (listItemStep itemfn) ("<" ++ tagLowerOf l ++ ">", imgs0, mc0)).1
      ++ "</" ++ tagLowerOf l ++ ">",
    ((listItems l).foldl (listItemStep itemfn) ("<" ++ tagLowerOf l ++ ">", imgs0, mc0)).2.1,
    ((listItems l).foldl (listItemStep itemfn) ("<" ++ tagLowerOf l ++ ">", imgs0, mc0)).2.2)

/-- The choices-row label formatting (`labelFormat === 'dot' ? ... : ...`). -/
def formatLabel (lf : LabelFormat) (label : String) : String :=
  match lf with
  | .dot => label ++ "."
  | .bracket => "(" ++ label ++ ")"
  | .paren => label ++ ")"

/-- One child-list traversal of the walker
(`for (const child of Array.from(node.childNodes)) walkNodes(child, ...)`),
tracking each child's `previousElementSibling` for `getTexSource`. -/
def walkKids (walk : Node → Option Node → WalkState → WalkState)
    (cs : List Node) (st : WalkState) : WalkState :=
  (cs.foldl (fun (a : WalkState × Option Node) c =>
      (walk c a.2 a.1, if isElemB c then some c else a.2)) (st, none)).1

/-- The block-element tag set of the unified walker. -/
def blockTags : List String := ["P", "DIV", "BR", "H1", "H2", "H3", "H4"]

/-- The fragment pushed for a resolved math source: raw MathML (with a
block-display attribute injected when detected block and absent), or TeX in
block/inline delimiters per the configured block-math format. -/
def mathFragment (cfg : WalkConfig) (n : Node) (src : MathSource) : String :=
  let isBlock := getAttrN n "display" = some "block" ∨ hasClass n "mjpage__block"
  match src.type with
  | .mathml =>
    if isBlock ∧ ¬ (containsStr src.value "display=\"block\"" = true) then
      replaceFirstS src.value "<math" "<math display=\"block\""
    else src.value
  | .tex =>
    if isBlock then
      match cfg.blockMathFormat with
      | .newlines => "\n\n\\[" ++ src.value ++ "\\]\n\n"
      | .simple => "\\[" ++ src.value ++ "\\]"
    else "\\(" ++ src.value ++ "\\)"

/-- Cell-content extraction (`extractCellContent`) relative to a walker. -/
def cellContentWith (walked : Node → Option Node → WalkConfig → WalkState → WalkState)
    (cell : Node) (imgs : List ImageRef) (mc : Nat) : String × List ImageRef × Nat :=
  (trimS (joinSep " " (walked cell none CELL_CONFIG ⟨[], imgs, mc⟩).parts),
    (walked cell none CELL_CONFIG ⟨[], imgs, mc⟩).images,
    (walked cell none CELL_CONFIG ⟨[], imgs, mc⟩).mathCount)

/-- List-item-content extraction (`extractListItemContent`) relative to a walker. -/
def itemContentWith (walked : Node → Option Node → WalkConfig → WalkState → WalkState)
    (item : Node) (imgs : List ImageRef) (mc : Nat) : String × List ImageRef × Nat :=
  (trimS (joinSep " " (walked item none LIST_ITEM_CONFIG ⟨[], imgs, mc⟩).parts),
    (walked item none LIST_ITEM_CONFIG ⟨[], imgs, mc⟩).images,
    (walked item none LIST_ITEM_CONFIG ⟨[], imgs, mc⟩).mathCount)

/-- Branches 8-14 of the walker dispatch (from the image branch onward),
split out of `walkStep` to keep each definition small. -/
def walkStepLate (walked : Node → Option Node → WalkConfig → WalkState → WalkState)
    (tag : String) (classes : List String) (attrs : List (String × String))
    (children : List Node) (prev : Option Node) (cfg : WalkConfig) (st : WalkState) : WalkState :=
  let n := Node.elem tag classes attrs children
  if tag = "IMG" then
    match getAttrN n "src" with
    | some src =>
      if src ≠ "" then
        { parts := st.parts ++ [mkPh st.images.length],
          images := st.images ++ [⟨mkPh st.images.length, src⟩],
          mathCount := st.mathCount }
      else st
    | none => st
  else if tag = "MJX-C" then
    let content := computedBefore n
    if content ≠ "" ∧ content ≠ "none" ∧ content ≠ "normal" then
      if stripQuotes content ≠ "" then pushPart st (stripQuotes content) else st
    else st
  else if isMathJaxB n ∧ (findDescN (fun c => hasClass c "selectList") n).isSome then
    match (childrenOf n).find? (fun c => tagLowerOf c = "mjx-math") with
    | some m => walkKids (fun c p s => walked c p cfg s) (childrenOf m) st
    | none => st
  else if isMathJaxB n then
    match getTexSource n prev with
    | some src =>
      { parts := st.parts ++ [mathFragment cfg n src], images := st.images,
        mathCount := st.mathCount + 1 }
    | none => pushPart st (textContent n)
  else if tag = "TABLE" ∧ ¬ cfg.skipChoicesTable then
    let r := processTableCore (cellContentWith walked) n st.images st.mathCount
    { parts := st.parts ++ [r.1], images := r.2.1, mathCount := r.2.2 }
  else if cfg.handleLists ∧ (tag = "OL" ∨ tag = "UL") then
    let r := processListCore (itemContentWith walked) n st.images st.mathCount
    { parts := st.parts ++ [r.1], images := r.2.1, mathCount := r.2.2 }
  else
    let st2 := walkKids (fun c p s => walked c p cfg s) children st
    if (cfg.handleBlockElements ∧ tag ∈ blockTags) ∧ st2.parts ≠ [] then pushPart st2 "\n\n"
    else st2

/-- One dispatch step of the unified walker `walkNodes`; `walked` is the
walker itself, applied to the node's strict descendants (one fuel step less
in `walkNodesF`).  Branch order is the dispatch order of the source;
branches 8-14 live in `walkStepLate`. -/
def walkStep (walked : Node → Option Node → WalkConfig → WalkState → WalkState)
    (node : Node) (prev : Option Node) (cfg : WalkConfig) (st : WalkState) : WalkState :=
  match node with
  | .text s => if trimS s ≠ "" then pushPart st (trimS s) else st
  | .other => st
  | .elem tag classes attrs children =>
    let n := Node.elem tag classes attrs children
    if tag = "STYLE" ∨ tag = "SCRIPT" then st
    else if hasClass n "autobotAnkiButton" then st
    else if tag = "MJX-ASSISTIVE-MML" then st
    else if startsWithS (idOf n) "freeResponseTextbox" then
      pushPart st "\\(\\boxed\x7b\\vphantom\x7bX\x7d\\quad\x7d\\)"
    else if hasClass n "selectList" then
      { parts := st.parts ++ [(extractSelectListContent n).1], images := st.images,
        mathCount := st.mathCount + (extractSelectListContent n).2 }
    else if tag = "SELECT" then pushPart st (selectText n)
    else if cfg.choicesConfig.isSome ∧ tag = "TR" ∧ 2 ≤ (tdDesc n).length then
      let cells := tdDesc n
      let label := trimS (textContent (cells.getD 0 .other))
      let formatted := formatLabel (cfg.choicesConfig.getD .paren) label
      let st1 := pushPart st (formatted ++ " ")
      let st2 := (cells.drop 1).foldl (fun s c => walked c none cfg s) st1
      pushPart st2 "\n"
    else walkStepLate walked tag classes attrs children prev cfg st

/-- `walkNodes(node, parts, images, mathCountRef, config)`, fueled.  The fuel
decreases once per recursion level; the entry points pass the node count of
the tree, which always suffices, so the fuel-exhausted branch is never taken
on the wrapped calls below.  The second argument is the node's
`previousElementSibling` where the surrounding traversal knows it (sibling
context of `querySelectorAll` results is not represented in the tree model
and is passed as `none`, exactly as for traversal roots). -/
def walkNodesF : Nat → Node → Option Node → WalkConfig → WalkState → WalkState
  | 0, _, _, _, st => st
  | f+1, node, prev, cfg, st => walkStep (walkNodesF f) node prev cfg st

theorem walkNodesF_succ (f : Nat) (node : Node) (prev : Option Node) (cfg : WalkConfig)
    (st : WalkState) : walkNodesF (f+1) node prev cfg st = walkStep (walkNodesF f) node prev cfg st :=
  rfl

/-- `walkNodes` at its canonical (always sufficient) fuel. -/
def walkNodes (n : Node) (prev : Option Node) (cfg : WalkConfig) (st : WalkState) : WalkState :=
  walkNodesF (nsize n) n prev cfg st

/-- `extractCellContent(cell, images, mathCountRef)`. -/
def extractCellContent (cell : Node) (imgs : List ImageRef) (mc : Nat) :
    String × List ImageRef × Nat :=
  let stc := walkNodes cell none CELL_CONFIG ⟨[], imgs, mc⟩
  (trimS (joinSep " " stc.parts), stc.images, stc.mathCount)

/-- `extractListItemContent(item, images, mathCountRef)`. -/
def extractListItemContent (item : Node) (imgs : List ImageRef) (mc : Nat) :
    String × List ImageRef × Nat :=
  let sti := walkNodes item none LIST_ITEM_CONFIG ⟨[], imgs, mc⟩
  (trimS (joinSep " " sti.parts), sti.images, sti.mathCount)

/-- `processTable(table, images, mathCountRef)`. -/
def processTable (t : Node) (imgs : List ImageRef) (mc : Nat) : String × List ImageRef × Nat :=
  processTableCore extractCellContent t imgs mc

/-- `processList(list, images, mathCountRef)`. -/
def processList (l : Node) (imgs : List ImageRef) (mc : Nat) : String × List ImageRef × Nat :=
  processListCore extractListItemContent l imgs mc

/-- The main `WalkConfig` built by `extractContent`. -/
def mainWalkConfig (lf : LabelFormat) (isChoices : Bool) : WalkConfig :=
  { blockMathFormat := .newlines, handleLists := true, handleBlockElements := true,
    choicesConfig := if isChoices then some lf else none, skipChoicesTable := isChoices }

/-- `extractContent(el, options)`.  The fire-and-forget script injection and
custom-event dispatch are external side effects with no bearing on the
returned value and are not represented. -/
def extractContent (el : Node) (lf : LabelFormat) : ExtractResult :=
  let isChoices := hasClass el "questionWidget-choicesTable"
  let st := walkNodesF (nsize el) el none (mainWalkConfig lf isChoices) ⟨[], [], 0⟩
  { content := normalizeParts st.parts, images := st.images }

/-! ## Image materialization (`processExtractedContent`)

The source fetches each image, optionally recolors it, stores it under
`autobot-<timestamp>-img<counter>.png` (the counter increments when the
filename is built, i.e. after a successful fetch), replaces the image's
placeholder with an `<img>` tag, and on any failure of the fetch/recolor/store
chain replaces the placeholder with the literal `[Image]` marker instead and
continues with the next image.  The asynchronous boundary operations are
modelled by a per-image `ImgOutcome`: `ok` (everything succeeded),
`fetchFail` (failure before the filename is built) and `storeFail` (failure
after the counter was consumed). -/

inductive ImgOutcome where
  | ok
  | fetchFail
  | storeFail
deriving Repr, DecidableEq

/-- The `<img src="autobot-<ts>-img<ctr>.png">` reference markup. -/
def imgTag (ts ctr : Nat) : String :=
  "<img src=\"autobot-" ++ toString ts ++ "-img" ++ toString ctr ++ ".png\">"

/-- Replacement text for one image given its outcome. -/
def repFor (ts ctr : Nat) : ImgOutcome → String
  | .ok => imgTag ts ctr
  | .fetchFail => "[Image]"
  | .storeFail => "[Image]"

/-- Counter evolution for one image (the counter is consumed when the
filename is built, which happens for `ok` and `storeFail`). -/
def nextCtr (ctr : Nat) : ImgOutcome → Nat
  | .fetchFail => ctr
  | _ => ctr + 1

/-- One iteration of the image loop of `processExtractedContent`. -/
def stepImage (ts : Nat) (acc : String × Nat) (io : ImageRef × ImgOutcome) : String × Nat :=
  (replaceFirstS acc.1 io.1.placeholder (repFor ts acc.2 io.2), nextCtr acc.2 io.2)

/-- `processExtractedContent(result, fixDarkMode, timestamp, imageCounterRef)`:
the content after replacing each image's placeholder in discovery order,
together with the final counter.  `outcomes` gives the boundary-operation
outcome per image; the function is total — a failing image degrades to the
`[Image]` marker, it never aborts the loop. -/
def processExtractedContent (result : ExtractResult) (outcomes : List ImgOutcome)
    (ts : Nat) (ctr0 : Nat) : String × Nat :=
  (result.images.zip outcomes).foldl (stepImage ts) (result.content, ctr0)

/-- Interleaving of literal chunks and placeholders: `assembleIn c0 l` is
`c0 ++ p1 ++ c1 ++ p2 ++ c2 ++ ...` for `l = [(img1, c1), (img2, c2), ...]`. -/
def assembleIn : String → List (ImageRef × String) → String
  | c0, [] => c0
  | c0, (img, c) :: rest => assembleIn (c0 ++ img.placeholder ++ c) rest

/-- The same interleaving with every placeholder replaced by its
materialization result (`<img>` tag or `[Image]` marker). -/
def assembleOut (ts : Nat) : String → Nat → List ((ImageRef × String) × ImgOutcome) → String
  | c0, _, [] => c0
  | c0, ctr, ((_, c), oc) :: rest => assembleOut ts (c0 ++ repFor ts ctr oc ++ c) (nextCtr ctr oc) rest

/-- Final counter after materializing a list of images. -/
def finCtr : Nat → List ImgOutcome → Nat
  | ctr, [] => ctr
  | ctr, oc :: rest => finCtr (nextCtr ctr oc) rest

/-- `s` contains no left-brace character. -/
def braceFree (s : String) : Prop := ∀ c ∈ s.data, c ≠ braceChar

instance : DecidablePred braceFree := fun s =>
  inferInstanceAs (Decidable (∀ c ∈ s.data, c ≠ braceChar))

/-! ## Capture-time hide/restore (`utils/capture.ts`)

`hideFreeResponseAnswers` saves each free-response block's `innerHTML` and
clears it, returning a restore function; `captureElement` hides, runs the
external `domToPng` capture against the hidden DOM, and restores in a
`finally` block on every exit path.  The DOM region of interest is modelled
as the list of the free-response blocks' rendered contents; the external
capture is a function from that state to a result or a thrown error. -/

/-- The restore closure: write each saved content back into its block. -/
def restoreBlocks (saved cur : List String) : List String :=
  List.zipWith (fun s _ => s) saved cur

/-- `hideFreeResponseAnswers(el)`: returns the hidden state and the restore
function (which closes over the saved contents). -/
def hideFreeResponseAnswers (blocks : List String) :
    List String × (List String → List String) :=
  (blocks.map (fun _ => ""), restoreBlocks blocks)

/-- `captureElement(el)`: hide the free-response answers, run the capture
(which may throw), and restore in a `finally` block.  Returns the capture
result together with the final DOM state. -/
def captureElement (blocks : List String) (shot : List String → Except String String) :
    Except String String × List String :=
  let h := hideFreeResponseAnswers blocks
  match shot h.1 with
  | .ok png => (.ok png, h.2 h.1)
  | .error e => (.error e, h.2 h.1)

/-! ## Lemmas about the normalization pipeline -/

/-- No two adjacent space characters. -/
def noDbl (l : List Char) : Prop := l.Chain' (fun a b => ¬(a = ' ' ∧ b = ' '))

theorem noDbl_nil : noDbl [] := List.chain'_nil

theorem noDbl_cons {a : Char} {l : List Char}
    (h1 : ∀ b ∈ l.head?, ¬(a = ' ' ∧ b = ' ')) (h2 : noDbl l) : noDbl (a :: l) :=
  List.chain'_cons'.2 ⟨h1, h2⟩

theorem noDbl_cons_of_ne {a : Char} {l : List Char} (ha : a ≠ ' ') (h : noDbl l) :
    noDbl (a :: l) :=
  noDbl_cons (fun _ _ hab => ha hab.1) h

theorem noDbl_tail {a : Char} {l : List Char} (h : noDbl (a :: l)) : noDbl l :=
  (List.chain'_cons'.1 h).2

theorem noDbl_head {a : Char} {l : List Char} (h : noDbl (a :: l)) :
    ∀ b ∈ l.head?, ¬(a = ' ' ∧ b = ' ') :=
  (List.chain'_cons'.1 h).1

/-- `collapseWsAux` never emits a tab. -/
theorem collapseWsAux_no_tab : ∀ (l : List Char) (b : Bool), '\t' ∉ collapseWsAux b l := by
  intro l
  induction l with
  | nil => intro b; simp [collapseWsAux]
  | cons c rest ih =>
    intro b
    by_cases hc : c = ' ' ∨ c = '\t'
    · cases b with
      | true => simpa [collapseWsAux, hc] using ih true
      | false =>
        simp only [collapseWsAux, hc, if_true, if_false]
        intro hmem
        rcases List.mem_cons.1 hmem with h | h
        · exact absurd h.symm (by decide)
        · exact ih true h
    · simp only [collapseWsAux, hc, if_false]
      intro hmem
      rcases List.mem_cons.1 hmem with h | h
      · rw [h] at hc; exact hc (Or.inr rfl)
      · exact ih false h

/-- `collapseWsAux` output has no adjacent double spaces, and in run state the
output never starts with a space. -/
theorem collapseWsAux_noDbl :
    ∀ (l : List Char), (∀ b, noDbl (collapseWsAux b l)) ∧
      (collapseWsAux true l).head? ≠ some ' ' := by
  intro l
  induction l with
  | nil => exact ⟨fun b => by simp [collapseWsAux, noDbl_nil], by simp [collapseWsAux]⟩
  | cons c rest ih =>
    by_cases hc : c = ' ' ∨ c = '\t'
    · refine ⟨fun b => ?_, ?_⟩
      · cases b with
        | true => simpa [collapseWsAux, hc] using ih.1 true
        | false =>
          simp only [collapseWsAux, hc, if_true, if_false]
          exact noDbl_cons (fun y hy hab => ih.2 (hab.2 ▸ Option.mem_def.1 hy)) (ih.1 true)
      · simpa [collapseWsAux, hc] using ih.2
    · refine ⟨fun b => ?_, ?_⟩
      · simp only [collapseWsAux, hc, if_false]
        exact noDbl_cons (fun y hy hab => hc (Or.inl hab.1)) (ih.1 false)
      · simp only [collapseWsAux, hc, if_false, List.head?_cons]
        intro hcontra
        exact hc (Or.inl (by injection hcontra))

/-- On tab-free input without double spaces, `collapseWsAux` is the identity
(in run state, provided the input does not start with a space). -/
theorem collapseWsAux_id :
    ∀ (l : List Char), '\t' ∉ l → noDbl l →
      collapseWsAux false l = l ∧ (l.head? ≠ some ' ' → collapseWsAux true l = l) := by
  intro l
  induction l with
  | nil => exact fun _ _ => ⟨rfl, fun _ => rfl⟩
  | cons c rest ih =>
    intro htab hdbl
    have htab' : '\t' ∉ rest := fun h => htab (List.mem_cons_of_mem _ h)
    have hct : c ≠ '\t' := fun h => htab (h ▸ List.mem_cons_self _ _)
    have ihr := ih htab' (noDbl_tail hdbl)
    by_cases hcsp : c = ' '
    · have hrest : rest.head? ≠ some ' ' := by
        intro hh
        exact noDbl_head hdbl ' ' (Option.mem_def.2 hh) ⟨hcsp, rfl⟩
      constructor
      · have h2 := ihr.2 hrest
        simp [collapseWsAux, hcsp, h2]
      · intro hh
        exact absurd (by simp [hcsp]) hh
    · have hcond : ¬(c = ' ' ∨ c = '\t') := by
        rintro (h | h)
        · exact hcsp h
        · exact hct h
      constructor
      · simp only [collapseWsAux, hcond, if_false]
        rw [ihr.1]
      · intro _
        simp only [collapseWsAux, hcond, if_false]
        rw [ihr.1]

/-- `cleanNl` only emits characters of its input. -/
theorem cleanNl_mem : ∀ (l : List Char), ∀ c ∈ cleanNl l, c ∈ l := by
  intro l
  induction l using cleanNl.induct with
  | case1 rest ih =>
    intro c hc
    rw [cleanNl.eq_1] at hc
    rcases List.mem_cons.1 hc with h | h
    · simp [h]
    · simp [ih c h]
  | case2 rest h1 ih =>
    intro c hc
    rw [cleanNl.eq_2 rest h1] at hc
    rcases List.mem_cons.1 hc with h | h
    · simp [h]
    · simp [ih c h]
  | case3 rest ih =>
    intro c hc
    rw [cleanNl.eq_3] at hc
    rcases List.mem_cons.1 hc with h | h
    · simp [h]
    · simp [ih c h]
  | case4 rest h1 ih =>
    intro c hc
    rw [cleanNl.eq_4 rest h1] at hc
    rcases List.mem_cons.1 hc with h | h
    · simp [h]
    · simp [ih c h]
  | case5 c0 rest h1 h2 h3 h4 ih =>
    intro c hc
    rw [cleanNl.eq_5 c0 rest h1 h2 h3 h4] at hc
    rcases List.mem_cons.1 hc with h | h
    · simp [h]
    · exact List.mem_cons_of_mem _ (ih c h)
  | case6 =>
    intro c hc
    simp [cleanNl] at hc

/-- The head of `cleanNl`'s output: a space can only come from a leading
space of the input. -/
theorem cleanNl_head : ∀ (l : List Char), (cleanNl l).head? = some ' ' → l.head? = some ' ' := by
  intro l
  rw [cleanNl.eq_def]
  split <;> simp_all

/-- `cleanNl` preserves the absence of double spaces. -/
theorem cleanNl_noDbl : ∀ (l : List Char), noDbl l → noDbl (cleanNl l) := by
  intro l
  induction l using cleanNl.induct with
  | case1 rest ih =>
    intro h
    rw [cleanNl.eq_1]
    exact noDbl_cons_of_ne (by decide) (ih (noDbl_tail (noDbl_tail (noDbl_tail h))))
  | case2 rest h1 ih =>
    intro h
    rw [cleanNl.eq_2 rest h1]
    exact noDbl_cons_of_ne (by decide) (ih (noDbl_tail (noDbl_tail h)))
  | case3 rest ih =>
    intro h
    rw [cleanNl.eq_3]
    exact noDbl_cons_of_ne (by decide) (ih (noDbl_tail (noDbl_tail h)))
  | case4 rest h1 ih =>
    intro h
    rw [cleanNl.eq_4 rest h1]
    exact noDbl_cons_of_ne (by decide) (ih (noDbl_tail h))
  | case5 c0 rest h1 h2 h3 h4 ih =>
    intro h
    rw [cleanNl.eq_5 c0 rest h1 h2 h3 h4]
    refine noDbl_cons (fun y hy hab => ?_) (ih (noDbl_tail h))
    have hy' := cleanNl_head rest (hab.2 ▸ Option.mem_def.1 hy)
    cases rest with
    | nil => simp at hy'
    | cons r0 rs =>
      simp only [List.head?_cons, Option.some.injEq] at hy'
      exact noDbl_head h r0 (Option.mem_def.2 rfl) ⟨hab.1, hy'⟩
  | case6 =>
    intro _
    exact noDbl_nil

/-- On newline-free input `cleanNl` is the identity. -/
theorem cleanNl_id : ∀ (l : List Char), '\n' ∉ l → cleanNl l = l := by
  intro l
  induction l using cleanNl.induct with
  | case1 rest ih => intro h; simp at h
  | case2 rest h1 ih => intro h; simp at h
  | case3 rest ih => intro h; simp at h
  | case4 rest h1 ih => intro h; simp at h
  | case5 c0 rest h1 h2 h3 h4 ih =>
    intro h
    simp only [List.mem_cons, not_or] at h
    rw [cleanNl.eq_5 c0 rest h1 h2 h3 h4, ih h.2]
  | case6 => intro _; rfl

/-- `capNlAux` only emits characters of its input. -/
theorem capNlAux_mem : ∀ (l : List Char) (s : Nat), ∀ c ∈ capNlAux s l, c ∈ l := by
  intro l
  induction l with
  | nil => intro s c hc; simp [capNlAux] at hc
  | cons c0 rest ih =>
    intro s c hc
    by_cases h0 : c0 = '\n'
    · by_cases hs : s < 2
      · rw [show capNlAux s (c0 :: rest) = '\n' :: capNlAux (s+1) rest by
          simp [capNlAux, h0, hs]] at hc
        rcases List.mem_cons.1 hc with h | h
        · simp [h, h0]
        · exact List.mem_cons_of_mem _ (ih (s+1) c h)
      · rw [show capNlAux s (c0 :: rest) = capNlAux s rest by simp [capNlAux, h0, hs]] at hc
        exact List.mem_cons_of_mem _ (ih s c hc)
    · rw [show capNlAux s (c0 :: rest) = c0 :: capNlAux 0 rest by simp [capNlAux, h0]] at hc
      rcases List.mem_cons.1 hc with h | h
      · simp [h]
      · exact List.mem_cons_of_mem _ (ih 0 c h)

/-- Below the cap, a leading space in `capNlAux`'s output comes from a
leading space of the input. -/
theorem capNlAux_head (l : List Char) (s : Nat) (hs : s < 2)
    (h : (capNlAux s l).head? = some ' ') : l.head? = some ' ' := by
  cases l with
  | nil => simp [capNlAux] at h
  | cons c0 rest =>
    by_cases h0 : c0 = '\n'
    · rw [show capNlAux s (c0 :: rest) = '\n' :: capNlAux (s+1) rest by
        simp [capNlAux, h0, hs]] at h
      simp at h
    · rw [show capNlAux s (c0 :: rest) = c0 :: capNlAux 0 rest by simp [capNlAux, h0]] at h
      simpa using h

/-- `capNlAux` preserves the absence of double spaces. -/
theorem capNlAux_noDbl : ∀ (l : List Char) (s : Nat), noDbl l → noDbl (capNlAux s l) := by
  intro l
  induction l with
  | nil => intro s _; simp [capNlAux, noDbl_nil]
  | cons c0 rest ih =>
    intro s h
    by_cases h0 : c0 = '\n'
    · by_cases hs : s < 2
      · rw [show capNlAux s (c0 :: rest) = '\n' :: capNlAux (s+1) rest by
          simp [capNlAux, h0, hs]]
        exact noDbl_cons_of_ne (by decide) (ih (s+1) (noDbl_tail h))
      · rw [show capNlAux s (c0 :: rest) = capNlAux s rest by simp [capNlAux, h0, hs]]
        exact ih s (noDbl_tail h)
    · rw [show capNlAux s (c0 :: rest) = c0 :: capNlAux 0 rest by simp [capNlAux, h0]]
      refine noDbl_cons (fun y hy hab => ?_) (ih 0 (noDbl_tail h))
      have hy' := capNlAux_head rest 0 (by decide) (hab.2 ▸ Option.mem_def.1 hy)
      cases rest with
      | nil => simp at hy'
      | cons r0 rs =>
        simp only [List.head?_cons, Option.some.injEq] at hy'
        exact noDbl_head h r0 (Option.mem_def.2 rfl) ⟨hab.1, hy'⟩

/-- On newline-free input `capNlAux` is the identity. -/
theorem capNlAux_id : ∀ (l : List Char) (s : Nat), '\n' ∉ l → capNlAux s l = l := by
  intro l
  induction l with
  | nil => intro s _; rfl
  | cons c0 rest ih =>
    intro s h
    simp only [List.mem_cons, not_or] at h
    have h0 : ¬ c0 = '\n' := fun hh => h.1 hh.symm
    rw [show capNlAux s (c0 :: rest) = c0 :: capNlAux 0 rest by simp [capNlAux, h0],
      ih 0 h.2]

/-- `para` only emits input characters or the `<br>` markup characters. -/
theorem para_mem : ∀ (l : List Char), ∀ c ∈ para l, c ∈ l ∨ c ∈ ['<', 'b', 'r', '>'] := by
  intro l
  induction l using para.induct with
  | case1 rest ih =>
    intro c hc
    rw [para.eq_1] at hc
    simp only [List.mem_cons] at hc
    rcases hc with h | h | h | h | h | h | h | h | h
    · exact Or.inr (by simp [h])
    · exact Or.inr (by simp [h])
    · exact Or.inr (by simp [h])
    · exact Or.inr (by simp [h])
    · exact Or.inr (by simp [h])
    · exact Or.inr (by simp [h])
    · exact Or.inr (by simp [h])
    · exact Or.inr (by simp [h])
    · rcases ih c h with h2 | h2
      · exact Or.inl (List.mem_cons_of_mem _ (List.mem_cons_of_mem _ h2))
      · exact Or.inr h2
  | case2 c0 rest h1 ih =>
    intro c hc
    rw [para.eq_2 c0 rest h1] at hc
    rcases List.mem_cons.1 hc with h | h
    · exact Or.inl (by simp [h])
    · rcases ih c h with h2 | h2
      · exact Or.inl (List.mem_cons_of_mem _ h2)
      · exact Or.inr h2
  | case3 =>
    intro c hc
    simp [para] at hc

/-- A leading space in `para`'s output comes from a leading space of the input. -/
theorem para_head : ∀ (l : List Char), (para l).head? = some ' ' → l.head? = some ' ' := by
  intro l
  rw [para.eq_def]
  split <;> simp_all

/-- `para` preserves the absence of double spaces. -/
theorem para_noDbl : ∀ (l : List Char), noDbl l → noDbl (para l) := by
  intro l
  induction l using para.induct with
  | case1 rest ih =>
    intro h
    rw [para.eq_1]
    refine noDbl_cons_of_ne (by decide) (noDbl_cons_of_ne (by decide)
      (noDbl_cons_of_ne (by decide) (noDbl_cons_of_ne (by decide)
        (noDbl_cons_of_ne (by decide) (noDbl_cons_of_ne (by decide)
          (noDbl_cons_of_ne (by decide) (noDbl_cons_of_ne (by decide) ?_)))))))
    exact ih (noDbl_tail (noDbl_tail h))
  | case2 c0 rest h1 ih =>
    intro h
    rw [para.eq_2 c0 rest h1]
    refine noDbl_cons (fun y hy hab => ?_) (ih (noDbl_tail h))
    have hy' := para_head rest (hab.2 ▸ Option.mem_def.1 hy)
    cases rest with
    | nil => simp at hy'
    | cons r0 rs =>
      simp only [List.head?_cons, Option.some.injEq] at hy'
      exact noDbl_head h r0 (Option.mem_def.2 rfl) ⟨hab.1, hy'⟩
  | case3 =>
    intro _
    exact noDbl_nil

/-- On newline-free input `para` is the identity. -/
theorem para_id : ∀ (l : List Char), '\n' ∉ l → para l = l := by
  intro l
  induction l using para.induct with
  | case1 rest ih => intro h; simp at h
  | case2 c0 rest h1 ih =>
    intro h
    simp only [List.mem_cons, not_or] at h
    rw [para.eq_2 c0 rest h1, ih h.2]
  | case3 => intro _; rfl

/-- `lineBr` output never contains a newline. -/
theorem lineBr_no_nl : ∀ (l : List Char), '\n' ∉ lineBr l := by
  intro l
  induction l using lineBr.induct with
  | case1 => simp [lineBr]
  | case2 rest ih =>
    rw [lineBr.eq_2]
    simp only [List.mem_cons, not_or]
    exact ⟨by decide, by decide, by decide, by decide, ih⟩
  | case3 c0 rest h1 ih =>
    rw [lineBr.eq_3 c0 rest h1]
    simp only [List.mem_cons, not_or]
    exact ⟨fun hh => h1 hh.symm, ih⟩

/-- `lineBr` only emits input characters or the `<br>` markup characters. -/
theorem lineBr_mem : ∀ (l : List Char), ∀ c ∈ lineBr l, c ∈ l ∨ c ∈ ['<', 'b', 'r', '>'] := by
  intro l
  induction l using lineBr.induct with
  | case1 => intro c hc; simp [lineBr] at hc
  | case2 rest ih =>
    intro c hc
    rw [lineBr.eq_2] at hc
    simp only [List.mem_cons] at hc
    rcases hc with h | h | h | h | h
    · exact Or.inr (by simp [h])
    · exact Or.inr (by simp [h])
    · exact Or.inr (by simp [h])
    · exact Or.inr (by simp [h])
    · rcases ih c h with h2 | h2
      · exact Or.inl (List.mem_cons_of_mem _ h2)
      · exact Or.inr h2
  | case3 c0 rest h1 ih =>
    intro c hc
    rw [lineBr.eq_3 c0 rest h1] at hc
    rcases List.mem_cons.1 hc with h | h
    · exact Or.inl (by simp [h])
    · rcases ih c h with h2 | h2
      · exact Or.inl (List.mem_cons_of_mem _ h2)
      · exact Or.inr h2

/-- A leading space in `lineBr`'s output comes from a leading space of the input. -/
theorem lineBr_head : ∀ (l : List Char), (lineBr l).head? = some ' ' → l.head? = some ' ' := by
  intro l
  rw [lineBr.eq_def]
  split <;> simp_all

/-- `lineBr` preserves the absence of double spaces. -/
theorem lineBr_noDbl : ∀ (l : List Char), noDbl l → noDbl (lineBr l) := by
  intro l
  induction l using lineBr.induct with
  | case1 => intro _; exact noDbl_nil
  | case2 rest ih =>
    intro h
    rw [lineBr.eq_2]
    exact noDbl_cons_of_ne (by decide) (noDbl_cons_of_ne (by decide)
      (noDbl_cons_of_ne (by decide) (noDbl_cons_of_ne (by decide) (ih (noDbl_tail h)))))
  | case3 c0 rest h1 ih =>
    intro h
    rw [lineBr.eq_3 c0 rest h1]
    refine noDbl_cons (fun y hy hab => ?_) (ih (noDbl_tail h))
    have hy' := lineBr_head rest (hab.2 ▸ Option.mem_def.1 hy)
    cases rest with
    | nil => simp at hy'
    | cons r0 rs =>
      simp only [List.head?_cons, Option.some.injEq] at hy'
      exact noDbl_head h r0 (Option.mem_def.2 rfl) ⟨hab.1, hy'⟩

/-- On newline-free input `lineBr` is the identity. -/
theorem lineBr_id : ∀ (l : List Char), '\n' ∉ l → lineBr l = l := by
  intro l
  induction l using lineBr.induct with
  | case1 => intro _; rfl
  | case2 rest ih => intro h; simp at h
  | case3 c0 rest h1 ih =>
    intro h
    simp only [List.mem_cons, not_or] at h
    rw [lineBr.eq_3 c0 rest h1, ih h.2]

/-- `dropTrailWs` yields a prefix of its input. -/
theorem dropTrailWs_isPrefix : ∀ (l : List Char), dropTrailWs l <+: l := by
  intro l
  induction l with
  | nil => exact List.prefix_refl _
  | cons c rest ih =>
    simp only [dropTrailWs]
    split
    · exact List.nil_prefix
    · exact List.cons_prefix_cons.2 ⟨rfl, ih⟩

theorem dropTrailWs_idem : ∀ (l : List Char), dropTrailWs (dropTrailWs l) = dropTrailWs l := by
  intro l
  induction l with
  | nil => rfl
  | cons c rest ih =>
    simp only [dropTrailWs]
    split
    · rfl
    · rename_i hcond
      simp only [dropTrailWs, ih, hcond, if_false]

/-- The head of `dropWhile isWsC` is never whitespace. -/
theorem dropWhile_ws_head :
    ∀ (l : List Char) (c : Char), (l.dropWhile isWsC).head? = some c → isWsC c = false := by
  intro l
  induction l with
  | nil => intro c h; simp at h
  | cons c0 rest ih =>
    intro c h
    by_cases h0 : isWsC c0
    · rw [List.dropWhile_cons_of_pos h0] at h
      exact ih c h
    · rw [List.dropWhile_cons_of_neg h0] at h
      simp only [List.head?_cons, Option.some.injEq] at h
      subst h
      exact Bool.not_eq_true _ ▸ (by simpa using h0)

/-- `dropWhile isWsC` fixes a list whose head is not whitespace. -/
theorem dropWhile_ws_id :
    ∀ (l : List Char), (∀ c, l.head? = some c → isWsC c = false) → l.dropWhile isWsC = l := by
  intro l h
  cases l with
  | nil => rfl
  | cons c rest =>
    have := h c rfl
    rw [List.dropWhile_cons_of_neg (by simp [this])]

theorem trimL_mem : ∀ (l : List Char), ∀ c ∈ trimL l, c ∈ l := by
  intro l c hc
  exact (List.dropWhile_sublist isWsC).mem ((dropTrailWs_isPrefix _).subset hc)

theorem trimL_noDbl {l : List Char} (h : noDbl l) : noDbl (trimL l) := by
  have h1 : noDbl (l.dropWhile isWsC) := h.suffix (List.dropWhile_suffix isWsC)
  exact h1.prefix (dropTrailWs_isPrefix _)

theorem trimL_idem : ∀ (l : List Char), trimL (trimL l) = trimL l := by
  intro l
  unfold trimL
  have hdw : (dropTrailWs (l.dropWhile isWsC)).dropWhile isWsC
      = dropTrailWs (l.dropWhile isWsC) := by
    apply dropWhile_ws_id
    intro c hc
    cases hm : dropTrailWs (l.dropWhile isWsC) with
    | nil => rw [hm] at hc; simp at hc
    | cons d t =>
      rw [hm] at hc
      simp only [List.head?_cons, Option.some.injEq] at hc
      have hpre := dropTrailWs_isPrefix (l.dropWhile isWsC)
      rw [hm] at hpre
      have hd : (l.dropWhile isWsC).head? = some d := by
        obtain ⟨u, hu⟩ := hpre
        rw [← hu]
        rfl
      exact hc ▸ dropWhile_ws_head l d hd
  rw [hdw, dropTrailWs_idem]

/-- The full cleanup chain (everything after the `join`). -/
def normChain (l : List Char) : List Char :=
  trimL (lineBr (para (capNl (cleanNl (collapseWs l)))))

theorem normalizeParts_eq (parts : List String) :
    normalizeParts parts = ⟨normChain (joinSepL [' '] (parts.map String.data))⟩ := rfl

/-- Shape invariants of the cleanup chain's output: no newline, no tab, no
adjacent double spaces, and already trimmed. -/
theorem normChain_props (x : List Char) :
    '\n' ∉ normChain x ∧ '\t' ∉ normChain x ∧ noDbl (normChain x) ∧
      trimL (normChain x) = normChain x := by
  refine ⟨?_, ?_, ?_, ?_⟩
  · intro hmem
    exact lineBr_no_nl _ (trimL_mem _ _ hmem)
  · intro hmem
    have h1 := trimL_mem _ _ hmem
    rcases lineBr_mem _ _ h1 with h2 | h2
    · rcases para_mem _ _ h2 with h3 | h3
      · have h4 := capNlAux_mem _ 0 _ h3
        have h5 := cleanNl_mem _ _ h4
        exact collapseWsAux_no_tab x false h5
      · simp at h3
    · simp at h2
  · exact trimL_noDbl (lineBr_noDbl _ (para_noDbl _ (capNlAux_noDbl _ 0
      (cleanNl_noDbl _ ((collapseWsAux_noDbl x).1 false)))))
  · exact trimL_idem _

/-- On a string that already has the output shape, the cleanup chain is the
identity. -/
theorem normChain_id (s : List Char) (h1 : '\n' ∉ s) (h2 : '\t' ∉ s) (h3 : noDbl s)
    (h4 : trimL s = s) : normChain s = s := by
  unfold normChain
  rw [show collapseWs s = s from (collapseWsAux_id s h2 h3).1,
    cleanNl_id s h1,
    show capNl s = s from capNlAux_id s 0 h1,
    para_id s h1, lineBr_id s h1, h4]

/-- C3: the content normalization pipeline (join fragments with single
spaces; collapse space/tab runs; trim spaces adjacent to newlines; cap
newline runs at two; convert double newlines to `<br><br>`; convert single
newlines to `<br>`; trim) is idempotent: re-applying it to its own output as
a one-fragment sequence returns that output unchanged. -/
theorem c3_normalizer_idempotent (parts : List String) :
    normalizeParts [normalizeParts parts] = normalizeParts parts := by
  have hprops := normChain_props (joinSepL [' '] (parts.map String.data))
  have hstep : normalizeParts [normalizeParts parts]
      = ⟨normChain (normChain (joinSepL [' '] (parts.map String.data)))⟩ := rfl
  rw [hstep, normChain_id _ hprops.1 hprops.2.1 hprops.2.2.1 hprops.2.2.2]
  rfl

/-! ## Lemmas about placeholders and materialization -/

theorem braceFree_append {s t : String} (hs : braceFree s) (ht : braceFree t) :
    braceFree (s ++ t) := by
  intro c hc
  rw [String.data_append] at hc
  rcases List.mem_append.1 hc with h | h
  · exact hs c h
  · exact ht c h

/-- A decimal digit character is never a brace. -/
theorem digitChar_ne_brace (n : Nat) (h : n < 10) : Nat.digitChar n ≠ braceChar := by
  interval_cases n <;> decide

/-- `Nat.toDigitsCore` in base ten only prepends digit characters. -/
theorem toDigitsCore_ne_brace :
    ∀ (fuel n : Nat) (acc : List Char), (∀ c ∈ acc, c ≠ braceChar) →
      ∀ c ∈ Nat.toDigitsCore 10 fuel n acc, c ≠ braceChar := by
  intro fuel
  induction fuel with
  | zero => intro n acc hacc c hc; exact hacc c hc
  | succ f ih =>
    intro n acc hacc c hc
    rw [show Nat.toDigitsCore 10 (f+1) n acc
        = if n / 10 = 0 then Nat.digitChar (n % 10) :: acc
          else Nat.toDigitsCore 10 f (n / 10) (Nat.digitChar (n % 10) :: acc) by
      rw [Nat.toDigitsCore]] at hc
    have hd : ∀ c ∈ Nat.digitChar (n % 10) :: acc, c ≠ braceChar := by
      intro c hc
      rcases List.mem_cons.1 hc with h | h
      · exact h ▸ digitChar_ne_brace _ (Nat.mod_lt _ (by decide))
      · exact hacc c h
    by_cases hz : n / 10 = 0
    · rw [if_pos hz] at hc
      exact hd c hc
    · rw [if_neg hz] at hc
      exact ih _ _ hd c hc

/-- The decimal representation of a natural number is brace-free. -/
theorem natRepr_braceFree (n : Nat) : braceFree (toString n) := by
  intro c hc
  have : (toString n).data = Nat.toDigitsCore 10 (n + 1) n [] := rfl
  rw [this] at hc
  exact toDigitsCore_ne_brace (n + 1) n [] (by simp) c hc

theorem imgTag_braceFree (ts ctr : Nat) : braceFree (imgTag ts ctr) := by
  unfold imgTag
  exact braceFree_append (braceFree_append (braceFree_append
    (braceFree_append (by decide) (natRepr_braceFree ts)) (by decide))
    (natRepr_braceFree ctr)) (by decide)

theorem repFor_braceFree (ts ctr : Nat) (oc : ImgOutcome) : braceFree (repFor ts ctr oc) := by
  cases oc with
  | ok => exact imgTag_braceFree ts ctr
  | fetchFail =>
    show braceFree "[Image]"
    decide
  | storeFail =>
    show braceFree "[Image]"
    decide

/-- The placeholder for index `i` starts with a brace. -/
theorem mkPh_head (i : Nat) : (mkPh i).data.head? = some braceChar := by
  unfold mkPh
  rw [String.data_append, String.data_append]
  rfl

theorem mkPh_ne_empty (i : Nat) : mkPh i ≠ "" := by
  intro h
  have h2 := mkPh_head i
  rw [h] at h2
  simp at h2

/-- Replacing the leftmost occurrence of a pattern that starts where the
brace-free prefix `c0` ends rewrites exactly that occurrence. -/
theorem replaceFirstL_seam :
    ∀ (c0 : List Char) (pat rep rest : List Char),
      (∀ c ∈ c0, c ≠ braceChar) → pat.head? = some braceChar →
      replaceFirstL pat rep (c0 ++ (pat ++ rest)) = c0 ++ (rep ++ rest) := by
  intro c0
  induction c0 with
  | nil =>
    intro pat rep rest _ hpat
    cases pat with
    | nil => simp at hpat
    | cons p0 pt =>
      simp only [List.nil_append, List.cons_append]
      rw [replaceFirstL.eq_2]
      rw [if_pos (List.isPrefixOf_iff_prefix.2
        (by rw [← List.cons_append]; exact List.prefix_append _ _))]
      rw [← List.cons_append, List.drop_left]
  | cons c cs ih =>
    intro pat rep rest hc0 hpat
    cases pat with
    | nil => simp at hpat
    | cons p0 pt =>
      have hp0 : p0 = braceChar := by simpa using hpat
      have hne : ¬ (p0 :: pt).isPrefixOf (c :: (cs ++ ((p0 :: pt) ++ rest))) = true := by
        intro hpre
        have hcp := List.cons_prefix_cons.1 (List.isPrefixOf_iff_prefix.1 hpre)
        exact hc0 c (List.mem_cons_self _ _) (hcp.1.symm.trans hp0)
      rw [List.cons_append, replaceFirstL.eq_2, if_neg hne]
      rw [ih (p0 :: pt) rep rest (fun d hd => hc0 d (List.mem_cons_of_mem _ hd)) hpat,
        List.cons_append]

/-- `replaceFirstS` at the seam, string level. -/
theorem replaceFirstS_seam (c0 p rest rep : String) (h1 : braceFree c0)
    (h2 : p.data.head? = some braceChar) :
    replaceFirstS (c0 ++ (p ++ rest)) p rep = c0 ++ (rep ++ rest) := by
  apply String.ext
  show replaceFirstL p.data rep.data (c0 ++ (p ++ rest)).data = (c0 ++ (rep ++ rest)).data
  rw [String.data_append, String.data_append, String.data_append, String.data_append]
  exact replaceFirstL_seam c0.data p.data rep.data rest.data h1 h2

theorem assembleIn_eq (l : List (ImageRef × String)) :
    ∀ (a : String), assembleIn a l = a ++ assembleIn "" l := by
  induction l with
  | nil =>
    intro a
    show a = a ++ ""
    exact (String.append_empty a).symm
  | cons ic rest ih =>
    intro a
    show assembleIn (a ++ ic.1.placeholder ++ ic.2) rest
      = a ++ assembleIn ("" ++ ic.1.placeholder ++ ic.2) rest
    rw [ih (a ++ ic.1.placeholder ++ ic.2), ih ("" ++ ic.1.placeholder ++ ic.2)]
    rw [String.empty_append, String.append_assoc, String.append_assoc, String.append_assoc]

/-- Core materialization theorem: on a content string assembled from
brace-free chunks interleaved with the images' placeholders, the image loop
of `processExtractedContent` replaces each placeholder exactly once, in
order, producing the assembled output with the matching replacement (file
reference or missing-image marker) in each slot. -/
theorem foldl_stepImage_assembled :
    ∀ (l : List ((ImageRef × String) × ImgOutcome)) (c0 : String) (ts ctr : Nat),
      braceFree c0 →
      (∀ x ∈ l, braceFree x.1.2) →
      (∀ x ∈ l, (x.1.1.placeholder).data.head? = some braceChar) →
      (l.foldl (fun acc x => stepImage ts acc (x.1.1, x.2)) (assembleIn c0 (l.map (·.1)), ctr))
        = (assembleOut ts c0 ctr l, finCtr ctr (l.map (·.2))) := by
  intro l
  induction l with
  | nil => intro c0 ts ctr _ _ _; rfl
  | cons x rest ih =>
    intro c0 ts ctr h0 hchunks hheads
    obtain ⟨⟨img, c⟩, oc⟩ := x
    have hc : braceFree c := hchunks _ (List.mem_cons_self _ _)
    have hh : img.placeholder.data.head? = some braceChar := hheads _ (List.mem_cons_self _ _)
    simp only [List.map_cons, List.foldl_cons]
    have hin : assembleIn c0 ((img, c) :: rest.map (·.1))
        = c0 ++ (img.placeholder ++ (c ++ assembleIn "" (rest.map (·.1)))) := by
      show assembleIn (c0 ++ img.placeholder ++ c) (rest.map (·.1)) = _
      rw [assembleIn_eq, String.append_assoc, String.append_assoc]
    have hstep : stepImage ts (assembleIn c0 ((img, c) :: rest.map (·.1)), ctr) (img, oc)
        = (assembleIn (c0 ++ repFor ts ctr oc ++ c) (rest.map (·.1)), nextCtr ctr oc) := by
      unfold stepImage
      rw [hin]
      simp only
      rw [replaceFirstS_seam c0 img.placeholder (c ++ assembleIn "" (rest.map (·.1)))
        (repFor ts ctr oc) h0 hh]
      rw [assembleIn_eq (rest.map (·.1)) (c0 ++ repFor ts ctr oc ++ c)]
      rw [String.append_assoc, String.append_assoc]
    rw [hstep]
    rw [ih (c0 ++ repFor ts ctr oc ++ c) ts (nextCtr ctr oc)
      (braceFree_append (braceFree_append h0 (repFor_braceFree ts ctr oc)) hc)
      (fun y hy => hchunks y (List.mem_cons_of_mem _ hy))
      (fun y hy => hheads y (List.mem_cons_of_mem _ hy))]
    rfl

/-! ## Descendant lemmas -/

mutual
theorem desc_trans : ∀ (n c m : Node), c ∈ desc n → m ∈ desc c → m ∈ desc n
  | .elem _ _ _ ch, c, m, hc, hm => descL_trans ch c m hc hm
  | .text _, _, _, hc, _ => by simp [desc] at hc
  | .other, _, _, hc, _ => by simp [desc] at hc

theorem descL_trans : ∀ (l : List Node) (c m : Node), c ∈ descL l → m ∈ desc c → m ∈ descL l
  | k :: ks, c, m, hc, hm => by
    simp only [descL, List.mem_cons, List.mem_append] at hc ⊢
    rcases hc with h | h | h
    · subst h
      exact Or.inr (Or.inl hm)
    · exact Or.inr (Or.inl (desc_trans k c m h hm))
    · exact Or.inr (Or.inr (descL_trans ks c m h hm))
  | [], c, m, hc, _ => by simp [descL] at hc
end

/-- A direct child is a descendant. -/
theorem child_mem_desc {c n : Node} (h : c ∈ childrenOf n) : c ∈ desc n := by
  cases n with
  | text s => simp [childrenOf] at h
  | other => simp [childrenOf] at h
  | elem t cls attrs ch =>
    simp only [childrenOf] at h
    show c ∈ descL ch
    induction ch with
    | nil => simp at h
    | cons k ks ih =>
      simp only [descL, List.mem_cons, List.mem_append]
      rcases List.mem_cons.1 h with h2 | h2
      · exact Or.inl h2
      · exact Or.inr (Or.inr (ih h2))

theorem allDesc_subset {p : Node → Bool} {n m : Node} (h : m ∈ allDesc p n) : m ∈ desc n :=
  List.mem_of_mem_filter h

theorem findDescN_mem {p : Node → Bool} {n m : Node} (h : findDescN p n = some m) : m ∈ desc n :=
  List.mem_of_find?_eq_some h

/-- Rows returned by the table-row query are descendants of the table. -/
theorem tableRows_mem_desc {t r : Node} (h : r ∈ tableRows t) : r ∈ desc t := by
  unfold tableRows at h
  rw [List.mem_flatten] at h
  obtain ⟨l, hl, hr⟩ := h
  rw [List.mem_map] at hl
  obtain ⟨c, hc, hcl⟩ := hl
  by_cases h1 : isTag c "TR"
  · rw [if_pos h1] at hcl
    rw [← hcl] at hr
    simp only [List.mem_singleton] at hr
    exact hr ▸ child_mem_desc hc
  · rw [if_neg h1] at hcl
    by_cases h2 : isTag c "TBODY" ∨ isTag c "THEAD"
    · rw [if_pos h2] at hcl
      rw [← hcl] at hr
      exact desc_trans _ _ _ (child_mem_desc hc)
        (child_mem_desc (List.mem_of_mem_filter hr))
    · rw [if_neg h2] at hcl
      rw [← hcl] at hr
      simp at hr

theorem rowCells_mem_desc {r c : Node} (h : c ∈ rowCells r) : c ∈ desc r :=
  child_mem_desc (List.mem_of_mem_filter h)

theorem listItems_mem_desc {l i : Node} (h : i ∈ listItems l) : i ∈ desc l :=
  child_mem_desc (List.mem_of_mem_filter h)

/-! ## The placeholder invariant (C1) -/

/-- Positional correctness of the image placeholders: the recorded images
carry exactly the placeholders of indices `0 .. N-1`, in discovery order. -/
def phOk (imgs : List ImageRef) : Prop :=
  imgs.map (fun r => r.placeholder) = (List.range imgs.length).map mkPh

theorem phOk_nil : phOk [] := rfl

/-- Appending the next sequential placeholder preserves the invariant. -/
theorem phOk_append {imgs : List ImageRef} (h : phOk imgs) (src : String) :
    phOk (imgs ++ [⟨mkPh imgs.length, src⟩]) := by
  unfold phOk
  rw [List.map_append, h, List.length_append, List.length_singleton, List.range_succ,
    List.map_append]
  simp

/-- Invariant preservation through a fold. -/
theorem foldl_preserve {α σ : Type _} (P : σ → Prop) (g : σ → α → σ) (l : List α)
    (hstep : ∀ s a, a ∈ l → P s → P (g s a)) : ∀ s, P s → P (l.foldl g s) := by
  induction l with
  | nil => intro s hs; exact hs
  | cons a rest ih =>
    intro s hs
    exact ih (fun s' a' ha' => hstep s' a' (List.mem_cons_of_mem _ ha'))
      (g s a) (hstep s a (List.mem_cons_self _ _) hs)

/-- `processTableCore` preserves any image-list invariant its cell extractor
preserves. -/
theorem processTableCore_preserve (P : List ImageRef → Prop)
    (cellfn : Node → List ImageRef → Nat → String × List ImageRef × Nat)
    (hcell : ∀ cell imgs mc, P imgs → P ((cellfn cell imgs mc).2.1))
    (t : Node) (imgs0 : List ImageRef) (mc0 : Nat) (h0 : P imgs0) :
    P ((processTableCore cellfn t imgs0 mc0).2.1) := by
  show P (((tableRows t).foldl (tableRowStep cellfn) _).2.1)
  refine foldl_preserve (fun (acc : String × List ImageRef × Nat) => P acc.2.1)
    (tableRowStep cellfn) (tableRows t) (fun acc row _ hacc => ?_) _ h0
  show P (((rowCells row).foldl (tableCellStep cellfn) _).2.1)
  exact foldl_preserve (fun (a : String × List ImageRef × Nat) => P a.2.1)
    (tableCellStep cellfn) (rowCells row) (fun a cell _ ha => hcell cell _ _ ha) _ hacc

/-- `processListCore` preserves any image-list invariant its item extractor
preserves. -/
theorem processListCore_preserve (P : List ImageRef → Prop)
    (itemfn : Node → List ImageRef → Nat → String × List ImageRef × Nat)
    (hitem : ∀ item imgs mc, P imgs → P ((itemfn item imgs mc).2.1))
    (l : Node) (imgs0 : List ImageRef) (mc0 : Nat) (h0 : P imgs0) :
    P ((processListCore itemfn l imgs0 mc0).2.1) := by
  show P (((listItems l).foldl (listItemStep itemfn) _).2.1)
  exact foldl_preserve (fun (acc : String × List ImageRef × Nat) => P acc.2.1)
    (listItemStep itemfn) (listItems l) (fun acc item _ hacc => hitem item _ _ hacc) _ h0

/-- Invariant preservation through one child-list traversal. -/
theorem walkKids_preserve (P : WalkState → Prop)
    (walk : Node → Option Node → WalkState → WalkState) (cs : List Node) (st : WalkState)
    (hw : ∀ c prev s, c ∈ cs → P s → P (walk c prev s)) (h : P st) :
    P (walkKids walk cs st) := by
  show P ((cs.foldl (fun (a : WalkState × Option Node) c =>
      (walk c a.2 a.1, if isElemB c then some c else a.2)) (st, none)).1)
  exact foldl_preserve (fun (a : WalkState × Option Node) => P a.1)
    (fun a c => (walk c a.2 a.1, if isElemB c then some c else a.2)) cs
    (fun a c hc ha => hw c a.2 a.1 hc ha) (st, none) h

/-- The walker preserves the placeholder invariant at every fuel. -/
theorem walkNodesF_phOk :
    ∀ (f : Nat) (n : Node) (prev : Option Node) (cfg : WalkConfig) (st : WalkState),
      phOk st.images → phOk (walkNodesF f n prev cfg st).images := by
  intro f
  induction f with
  | zero => intro n prev cfg st h; exact h
  | succ f ih =>
    intro n prev cfg st h
    rw [walkNodesF_succ]
    cases n with
    | text s =>
      simp only [walkStep]
      split
      · exact h
      · exact h
    | other => exact h
    | elem tag classes attrs children =>
      simp only [walkStep]
      split
      · exact h
      split
      · exact h
      split
      · exact h
      split
      · exact h
      split
      · exact h
      split
      · exact h
      split
      · exact foldl_preserve (fun (s : WalkState) => phOk s.images)
          (fun s c => walkNodesF f c none cfg s)
          ((tdDesc (Node.elem tag classes attrs children)).drop 1)
          (fun s c _ hs => ih c none cfg s hs) _ h
      dsimp only [walkStepLate]
      split
      · split
        · split
          · exact phOk_append h _
          · exact h
        · exact h
      split
      · split
        · split
          · exact h
          · exact h
        · exact h
      split
      · split
        · exact walkKids_preserve (fun (s : WalkState) => phOk s.images)
            (fun c p s => walkNodesF f c p cfg s) _ st
            (fun c p s _ hs => ih c p cfg s hs) h
        · exact h
      split
      · split
        · exact h
        · exact h
      split
      · exact processTableCore_preserve phOk (cellContentWith (walkNodesF f))
          (fun cell imgs mc himgs => ih cell none CELL_CONFIG ⟨[], imgs, mc⟩ himgs)
          _ st.images st.mathCount h
      split
      · exact processListCore_preserve phOk (itemContentWith (walkNodesF f))
          (fun item imgs mc himgs => ih item none LIST_ITEM_CONFIG ⟨[], imgs, mc⟩ himgs)
          _ st.images st.mathCount h
      · split
        · exact walkKids_preserve (fun (s : WalkState) => phOk s.images)
            (fun c p s => walkNodesF f c p cfg s) children st
            (fun c p s _ hs => ih c p cfg s hs) h
        · exact walkKids_preserve (fun (s : WalkState) => phOk s.images)
            (fun c p s => walkNodesF f c p cfg s) children st
            (fun c p s _ hs => ih c p cfg s hs) h

/-! ## Non-emptiness of fragments (C8) -/

/-- All fragments in the sink are non-empty. -/
def partsNE (st : WalkState) : Prop := ∀ p ∈ st.parts, p ≠ ""

/-- Every math container in the subtree (the node itself included) has
non-empty text content.  This is the hypothesis under which the raw-text
fallback of the math branch cannot push an empty fragment. -/
def mathTextOk (n : Node) : Prop :=
  ∀ m ∈ n :: desc n, isMathJaxB m = true → textContent m ≠ ""

theorem mathTextOk_of_desc {n m : Node} (h : mathTextOk n) (hm : m ∈ desc n) : mathTextOk m := by
  intro x hx hmath
  rcases List.mem_cons.1 hx with h1 | h1
  · exact h x (List.mem_cons_of_mem _ (h1 ▸ hm)) hmath
  · exact h x (List.mem_cons_of_mem _ (desc_trans n m x hm h1)) hmath

theorem mathTextOk_of_child {n c : Node} (h : mathTextOk n) (hc : c ∈ childrenOf n) :
    mathTextOk c :=
  mathTextOk_of_desc h (child_mem_desc hc)

theorem ne_empty_of_data {s : String} (h : s.data ≠ []) : s ≠ "" := by
  intro he
  exact h (he ▸ rfl)

theorem append_ne_left {s : String} (h : s ≠ "") (t : String) : s ++ t ≠ "" := by
  apply ne_empty_of_data
  rw [String.data_append]
  intro hc
  rcases List.append_eq_nil.1 hc with ⟨h1, _⟩
  exact h (String.ext h1)

theorem append_ne_right (s : String) {t : String} (h : t ≠ "") : s ++ t ≠ "" := by
  apply ne_empty_of_data
  rw [String.data_append]
  intro hc
  rcases List.append_eq_nil.1 hc with ⟨_, h2⟩
  exact h (String.ext h2)

theorem partsNE_snoc {l : List String} (h : ∀ p ∈ l, p ≠ "") {x : String} (hx : x ≠ "") :
    ∀ p ∈ l ++ [x], p ≠ "" := by
  intro p hp
  rcases List.mem_append.1 hp with h1 | h1
  · exact h p h1
  · rw [List.mem_singleton.1 h1]
    exact hx

/-- `join` of a non-empty list of strings whose head is non-empty is non-empty. -/
theorem joinSep_ne (sep : String) (x : String) (xs : List String) (hx : x ≠ "") :
    joinSep sep (x :: xs) ≠ "" := by
  cases xs with
  | nil => exact hx
  | cons y ys =>
    show (⟨joinSepL sep.data (x.data :: y.data :: ys.map String.data)⟩ : String) ≠ ""
    apply ne_empty_of_data
    show x.data ++ sep.data ++ joinSepL sep.data (y.data :: ys.map String.data) ≠ []
    intro hc
    rcases List.append_eq_nil.1 hc with ⟨h1, _⟩
    rcases List.append_eq_nil.1 h1 with ⟨h2, _⟩
    exact hx (String.ext h2)

theorem truthyAttr_ne {n : Node} {a v : String} (h : truthyAttr n a = some v) : v ≠ "" := by
  unfold truthyAttr at h
  cases hg : getAttrN n a with
  | none => rw [hg] at h; simp at h
  | some w =>
    rw [hg] at h
    dsimp only at h
    by_cases hw : w = ""
    · rw [if_pos hw] at h
      simp at h
    · rw [if_neg hw] at h
      simp only [Option.some.injEq] at h
      exact h ▸ hw

theorem mjpageChildAttr_ne {name : String} {n : Node} {v : String}
    (h : mjpageChildAttr name n = some v) : v ≠ "" := by
  unfold mjpageChildAttr at h
  split at h
  · split at h
    · exact truthyAttr_ne h
    · simp at h
  · simp at h

/-- Every math source returned by `getTexSource` carries a non-empty value
(each producing branch is guarded by a truthiness test). -/
theorem getTexSource_value_ne :
    ∀ (n : Node) (prev : Option Node) (src : MathSource),
      getTexSource n prev = some src → src.value ≠ "" := by
  intro n prev src h
  unfold getTexSource at h
  cases h1 : mjpageChildAttr "data-tex" n with
  | some t =>
    rw [h1] at h
    dsimp only at h
    simp only [Option.some.injEq] at h
    rw [← h]
    exact mjpageChildAttr_ne h1
  | none =>
  rw [h1] at h
  dsimp only at h
  cases h2 : mjpageChildAttr "data-mathml" n with
  | some m =>
    rw [h2] at h
    dsimp only at h
    simp only [Option.some.injEq] at h
    rw [← h]
    exact mjpageChildAttr_ne h2
  | none =>
  rw [h2] at h
  dsimp only at h
  cases h3 : truthyAttr n "data-tex" with
  | some t =>
    rw [h3] at h
    dsimp only at h
    simp only [Option.some.injEq] at h
    rw [← h]
    exact truthyAttr_ne h3
  | none =>
  rw [h3] at h
  dsimp only at h
  cases h4 : truthyAttr n "data-mathml" with
  | some m =>
    rw [h4] at h
    dsimp only at h
    simp only [Option.some.injEq] at h
    rw [← h]
    exact truthyAttr_ne h4
  | none =>
  rw [h4] at h
  dsimp only at h
  cases prev with
  | none => simp at h
  | some p =>
    dsimp only at h
    split at h
    · split at h
      · simp at h
      · rename_i hne
        simp only [Option.some.injEq] at h
        rw [← h]
        exact hne
    · simp at h

theorem replaceFirstL_ne (pat rep : List Char) :
    ∀ (s : List Char), s ≠ [] → rep ≠ [] → replaceFirstL pat rep s ≠ [] := by
  intro s hs hrep
  cases s with
  | nil => exact absurd rfl hs
  | cons c rest =>
    rw [replaceFirstL.eq_2]
    split
    · intro hc
      rcases List.append_eq_nil.1 hc with ⟨h1, _⟩
      exact hrep h1
    · simp

theorem replaceFirstS_ne {s : String} (pat rep : String) (hs : s ≠ "") (hrep : rep ≠ "") :
    replaceFirstS s pat rep ≠ "" := by
  apply ne_empty_of_data
  show replaceFirstL pat.data rep.data s.data ≠ []
  apply replaceFirstL_ne
  · intro hc
    exact hs (String.ext hc)
  · intro hc
    exact hrep (String.ext hc)

/-- The math fragment is never empty (given the source value is non-empty,
which `getTexSource` guarantees). -/
theorem mathFragment_ne (cfg : WalkConfig) (n : Node) (src : MathSource)
    (hv : src.value ≠ "") : mathFragment cfg n src ≠ "" := by
  unfold mathFragment
  cases src with
  | mk ty v =>
    cases ty with
    | mathml =>
      simp only
      split
      · exact replaceFirstS_ne _ _ hv (by decide)
      · exact hv
    | tex =>
      simp only
      split
      · split
        · exact append_ne_left (append_ne_left (by decide) v) _
        · exact append_ne_left (append_ne_left (by decide) v) _
      · exact append_ne_left (append_ne_left (by decide) v) _

/-- The selectList formatter never produces an empty string: the no-option
case is the literal blank, and every kept option text is non-empty. -/
theorem extractSelectListContent_ne (n : Node) : (extractSelectListContent n).1 ≠ "" := by
  unfold extractSelectListContent
  have hinv : ∀ x ∈ ((allDesc (fun c => hasClass c "selectListOption") n).foldl
      selectListAccStep ([], 0)).1, x ≠ "" := by
    refine foldl_preserve (fun (a : List String × Nat) => ∀ x ∈ a.1, x ≠ "")
      selectListAccStep _ (fun a opt _ ha => ?_) _ (by simp)
    unfold selectListAccStep
    split
    · rename_i hne
      exact partsNE_snoc ha hne
    · exact ha
  dsimp only
  split
  · exact (by decide : ("_________" : String) ≠ "")
  · split
    · rename_i hnil _
      cases hl : ((allDesc (fun c => hasClass c "selectListOption") n).foldl
          selectListAccStep ([], 0)).1 with
      | nil => exact absurd hl hnil
      | cons x xs =>
        exact joinSep_ne "/" x xs (hinv x (hl ▸ List.mem_cons_self _ _))
    · exact append_ne_left (append_ne_left (by decide) _) _

/-- The native-select formatter never produces an empty string (every branch
starts with the literal blank). -/
theorem selectText_ne (n : Node) : selectText n ≠ "" := by
  unfold selectText
  dsimp only
  split
  · exact (by decide : ("_________" : String) ≠ "")
  · split
    · exact append_ne_left (append_ne_left (by decide) _) _
    · exact append_ne_left (append_ne_left (by decide) _) _

/-- The table serialization is never empty (it ends with the closing tag). -/
theorem processTableCore_ne (cellfn : Node → List ImageRef → Nat → String × List ImageRef × Nat)
    (t : Node) (imgs : List ImageRef) (mc : Nat) :
    (processTableCore cellfn t imgs mc).1 ≠ "" := by
  exact append_ne_right _ (by decide)

/-- The list serialization is never empty (it ends with the closing tag). -/
theorem processListCore_ne (itemfn : Node → List ImageRef → Nat → String × List ImageRef × Nat)
    (l : Node) (imgs : List ImageRef) (mc : Nat) :
    (processListCore itemfn l imgs mc).1 ≠ "" := by
  exact append_ne_right _ (by decide)

theorem partsNE_push {st : WalkState} {s : String} (h : partsNE st) (hs : s ≠ "") :
    partsNE (pushPart st s) :=
  partsNE_snoc h hs

/-- The walker only appends non-empty fragments, provided every math
container in the subtree has non-empty text content (the hypothesis that
rules out the empty raw-text fallback). -/
theorem walkNodesF_partsNE :
    ∀ (f : Nat) (n : Node) (prev : Option Node) (cfg : WalkConfig) (st : WalkState),
      mathTextOk n → partsNE st → partsNE (walkNodesF f n prev cfg st) := by
  intro f
  induction f with
  | zero => intro n prev cfg st _ h; exact h
  | succ f ih =>
    intro n prev cfg st hm h
    rw [walkNodesF_succ]
    cases n with
    | text s =>
      simp only [walkStep]
      split
      · rename_i hts
        exact partsNE_push h hts
      · exact h
    | other => exact h
    | elem tag classes attrs children =>
      simp only [walkStep]
      split
      · exact h
      split
      · exact h
      split
      · exact h
      split
      · exact partsNE_push h (by decide)
      split
      · exact partsNE_snoc h (extractSelectListContent_ne _)
      split
      · exact partsNE_push h (selectText_ne _)
      split
      · refine partsNE_push ?_ (by decide)
        refine foldl_preserve partsNE (fun s c => walkNodesF f c none cfg s)
          ((tdDesc (Node.elem tag classes attrs children)).drop 1)
          (fun s c hc hs => ?_) _ (partsNE_push h (append_ne_right _ (by decide)))
        exact ih c none cfg s
          (mathTextOk_of_desc hm (allDesc_subset (List.drop_subset _ _ hc))) hs
      dsimp only [walkStepLate]
      split
      · split
        · split
          · exact partsNE_snoc h (mkPh_ne_empty _)
          · exact h
        · exact h
      split
      · split
        · split
          · rename_i hsq
            exact partsNE_push h hsq
          · exact h
        · exact h
      split
      · split
        · rename_i m hfind
          refine walkKids_preserve partsNE (fun c p s => walkNodesF f c p cfg s) _ st
            (fun c p s hc hs => ?_) h
          have hmch : m ∈ childrenOf (Node.elem tag classes attrs children) :=
            List.mem_of_find?_eq_some hfind
          exact ih c p cfg s
            (mathTextOk_of_desc hm
              (desc_trans _ m c (child_mem_desc hmch) (child_mem_desc hc))) hs
        · exact h
      split
      · rename_i hmath
        split
        · rename_i src heq
          exact partsNE_snoc h
            (mathFragment_ne cfg _ src (getTexSource_value_ne _ prev src heq))
        · refine partsNE_push h ?_
          exact hm _ (List.mem_cons_self _ _) hmath
      split
      · exact partsNE_snoc h (processTableCore_ne _ _ _ _)
      split
      · exact partsNE_snoc h (processListCore_ne _ _ _ _)
      · have hkids : partsNE (walkKids (fun c p s => walkNodesF f c p cfg s) children st) := by
          refine walkKids_preserve partsNE (fun c p s => walkNodesF f c p cfg s) children st
            (fun c p s hc hs => ?_) h
          exact ih c p cfg s (mathTextOk_of_child hm (by exact hc)) hs
        split
        · exact partsNE_push hkids (by decide)
        · exact hkids

/-! ## Materialization on an assembled content string -/

/-- Under the positional invariant, every recorded placeholder starts with the
brace character. -/
theorem phOk_head {imgs : List ImageRef} (h : phOk imgs) :
    ∀ img ∈ imgs, img.placeholder.data.head? = some braceChar := by
  intro img hmem
  have h1 : img.placeholder ∈ imgs.map (fun r => r.placeholder) :=
    List.mem_map_of_mem _ hmem
  rw [h] at h1
  obtain ⟨i, _, hi⟩ := List.mem_map.1 h1
  rw [← hi]
  exact mkPh_head i

/-- The image loop of `processExtractedContent` (a fold over the
image/outcome pairs) coincides with the fold over the triples that also carry
each image's following content chunk. -/
theorem foldl_zip_zip (ts : Nat) :
    ∀ (imgs : List ImageRef) (chunks : List String) (outcomes : List ImgOutcome)
      (init : String × Nat), imgs.length = chunks.length →
      (imgs.zip outcomes).foldl (stepImage ts) init
        = ((imgs.zip chunks).zip outcomes).foldl
            (fun acc x => stepImage ts acc (x.1.1, x.2)) init := by
  intro imgs
  induction imgs with
  | nil => intros; rfl
  | cons img rest ih =>
    intro chunks outcomes init hlen
    cases chunks with
    | nil => simp at hlen
    | cons c cs =>
      cases outcomes with
      | nil => rfl
      | cons oc ocs =>
        simp only [List.zip_cons_cons, List.foldl_cons]
        exact ih cs ocs _ (by simpa using hlen)

/-- `processExtractedContent` on a content string assembled from brace-free
chunks interleaved with the images' placeholders: each placeholder is
replaced exactly once, in order, by its image's materialization result. -/
theorem processExtractedContent_assembled
    (imgs : List ImageRef) (chunks : List String) (outcomes : List ImgOutcome)
    (c0 : String) (ts ctr : Nat)
    (hheads : ∀ img ∈ imgs, img.placeholder.data.head? = some braceChar)
    (hlen1 : imgs.length = chunks.length) (hlen2 : imgs.length = outcomes.length)
    (hc0 : braceFree c0) (hchunks : ∀ c ∈ chunks, braceFree c) :
    processExtractedContent ⟨assembleIn c0 (imgs.zip chunks), imgs⟩ outcomes ts ctr
      = (assembleOut ts c0 ctr ((imgs.zip chunks).zip outcomes), finCtr ctr outcomes) := by
  have hlz : (imgs.zip chunks).length = imgs.length := by
    rw [List.length_zip]
    omega
  have hfst : ((imgs.zip chunks).zip outcomes).map (fun x => x.1) = imgs.zip chunks :=
    List.map_fst_zip _ _ (Nat.le_of_eq (hlz.trans hlen2))
  have hsnd : ((imgs.zip chunks).zip outcomes).map (fun x => x.2) = outcomes :=
    List.map_snd_zip _ _ (Nat.le_of_eq ((hlz.trans hlen2).symm))
  have hmain := foldl_stepImage_assembled ((imgs.zip chunks).zip outcomes) c0 ts ctr hc0
    (fun x hx => by
      obtain ⟨⟨img, c⟩, oc⟩ := x
      exact hchunks c (List.mem_zip (List.mem_zip hx).1).2)
    (fun x hx => by
      obtain ⟨⟨img, c⟩, oc⟩ := x
      exact hheads img (List.mem_zip (List.mem_zip hx).1).1)
  rw [hfst, hsnd] at hmain
  show (imgs.zip outcomes).foldl (stepImage ts) (assembleIn c0 (imgs.zip chunks), ctr) = _
  rw [foldl_zip_zip ts imgs chunks outcomes _ hlen1]
  exact hmain

/-! ## Capture restore lemma -/

/-- Restoring over the hidden (cleared) blocks yields the original contents. -/
theorem restoreBlocks_hidden : ∀ (bs : List String),
    restoreBlocks bs (bs.map (fun _ => "")) = bs := by
  intro bs
  induction bs with
  | nil => rfl
  | cons b rest ih =>
    show b :: restoreBlocks rest (rest.map (fun _ => "")) = b :: rest
    rw [ih]

/-! ## Concrete nodes for the end-to-end scenarios -/

/-- A plain `<td>` holding one text node. -/
def tdCell (s : String) : Node := Node.elem "TD" [] [] [Node.text s]

/-- The trimmed, non-empty `<option>` texts the native-`select` branch
formats. -/
def optTexts (n : Node) : List String :=
  ((allDesc (fun c => tagLowerOf c = "option") n).map (fun o => trimS (textContent o))).filter
    (fun t => t ≠ "")

/-! ## The claims -/

/-- C1: within one `extractContent` call the N discovered images receive the
placeholders of indices 0 through N-1 (`mkPh 0 .. mkPh (N-1)`), in
first-encounter document order — images found inside table cells and list
items share the same list and numbering — and on a content string assembled
from brace-free chunks interleaved with those placeholders, the image loop of
`processExtractedContent` replaces each placeholder substring exactly once,
in order. -/
theorem c1_placeholder_order_and_single_replacement :
    (∀ (el : Node) (lf : LabelFormat), phOk (extractContent el lf).images)
    ∧ ∀ (imgs : List ImageRef) (chunks : List String) (outcomes : List ImgOutcome)
        (c0 : String) (ts ctr : Nat),
        phOk imgs → imgs.length = chunks.length → imgs.length = outcomes.length →
        braceFree c0 → (∀ c ∈ chunks, braceFree c) →
        processExtractedContent ⟨assembleIn c0 (imgs.zip chunks), imgs⟩ outcomes ts ctr
          = (assembleOut ts c0 ctr ((imgs.zip chunks).zip outcomes), finCtr ctr outcomes) := by
  constructor
  · intro el lf
    show phOk (walkNodesF (nsize el) el none
      (mainWalkConfig lf (hasClass el "questionWidget-choicesTable")) ⟨[], [], 0⟩).images
    exact walkNodesF_phOk _ _ _ _ _ phOk_nil
  · intro imgs chunks outcomes c0 ts ctr hph hlen1 hlen2 hc0 hchunks
    exact processExtractedContent_assembled imgs chunks outcomes c0 ts ctr
      (phOk_head hph) hlen1 hlen2 hc0 hchunks

theorem c1_placeholder_order_and_single_replacement_witness :
    phOk (extractContent (Node.elem "DIV" [] []
        [Node.elem "IMG" [] [("src", "u0")] [], Node.elem "IMG" [] [("src", "u1")] []])
        .paren).images
    ∧ processExtractedContent
        ⟨assembleIn "Q " ([(⟨mkPh 0, "u0"⟩ : ImageRef), ⟨mkPh 1, "u1"⟩].zip [" mid ", " end"]),
          [⟨mkPh 0, "u0"⟩, ⟨mkPh 1, "u1"⟩]⟩ [.ok, .storeFail] 9 0
      = (assembleOut 9 "Q " 0
          (([(⟨mkPh 0, "u0"⟩ : ImageRef), ⟨mkPh 1, "u1"⟩].zip [" mid ", " end"]).zip
            [.ok, .storeFail]),
         finCtr 0 [.ok, .storeFail]) :=
  ⟨c1_placeholder_order_and_single_replacement.1 _ .paren,
   c1_placeholder_order_and_single_replacement.2 _ _ _ "Q " 9 0
     (by unfold phOk; decide) rfl rfl (by decide) (by decide)⟩

/-- C2: for a legacy `.mjpage` wrapper, source resolution first searches the
wrapper's descendants for an `mjx-container` child carrying a `data-tex`
value and returns that child's value when present — regardless of any
`data-tex` value on the wrapper itself. -/
theorem c2_mjpage_child_tex_priority (n : Node) (prev : Option Node) (c : Node) (v : String)
    (hcls : hasClass n "mjpage" = true)
    (hfind : findDescN (mjxWithAttr "data-tex") n = some c)
    (hval : truthyAttr c "data-tex" = some v) :
    getTexSource n prev = some ⟨MType.tex, v⟩ := by
  have hch : mjpageChildAttr "data-tex" n = some v := by
    unfold mjpageChildAttr
    rw [if_pos hcls, hfind]
    exact hval
  unfold getTexSource
  rw [hch]

theorem c2_mjpage_child_tex_priority_witness :
    getTexSource (Node.elem "SPAN" ["mjpage"] [("data-tex", "broken")]
        [Node.elem "MJX-CONTAINER" [] [("data-tex", "x^2")] []]) none
      = some ⟨MType.tex, "x^2"⟩ :=
  c2_mjpage_child_tex_priority _ none (Node.elem "MJX-CONTAINER" [] [("data-tex", "x^2")] [])
    "x^2" rfl (by rfl) rfl

/-- C4: image failure isolation — with three image references of which the
second fails at the fetch, materialization completes without aborting, the
final content carries the real file references for images 1 and 3 (named
with counters 0 and 1: the counter is not consumed by the failed fetch) and
the literal bracketed marker for image 2. -/
theorem c4_image_failure_isolation (c0 c1 c2 c3 s0 s1 s2 : String) (ts : Nat)
    (h0 : braceFree c0) (h1 : braceFree c1) (h2 : braceFree c2) (h3 : braceFree c3) :
    processExtractedContent
        ⟨assembleIn c0 ([(⟨mkPh 0, s0⟩ : ImageRef), ⟨mkPh 1, s1⟩, ⟨mkPh 2, s2⟩].zip
            [c1, c2, c3]),
          [⟨mkPh 0, s0⟩, ⟨mkPh 1, s1⟩, ⟨mkPh 2, s2⟩]⟩
        [.ok, .fetchFail, .ok] ts 0
      = (((c0 ++ imgTag ts 0 ++ c1) ++ "[Image]" ++ c2) ++ imgTag ts 1 ++ c3, 2) := by
  have hheads : ∀ img ∈ [(⟨mkPh 0, s0⟩ : ImageRef), ⟨mkPh 1, s1⟩, ⟨mkPh 2, s2⟩],
      img.placeholder.data.head? = some braceChar := by
    intro img hmem
    simp only [List.mem_cons, List.not_mem_nil, or_false] at hmem
    rcases hmem with h | h | h
    · rw [h]; exact mkPh_head 0
    · rw [h]; exact mkPh_head 1
    · rw [h]; exact mkPh_head 2
  have hchunks : ∀ c ∈ [c1, c2, c3], braceFree c := by
    intro c hc
    simp only [List.mem_cons, List.not_mem_nil, or_false] at hc
    rcases hc with h | h | h
    · rw [h]; exact h1
    · rw [h]; exact h2
    · rw [h]; exact h3
  rw [processExtractedContent_assembled _ [c1, c2, c3] [.ok, .fetchFail, .ok] c0 ts 0
    hheads rfl rfl h0 hchunks]
  rfl

theorem c4_image_failure_isolation_witness :
    processExtractedContent
        ⟨assembleIn "Q " ([(⟨mkPh 0, "u0"⟩ : ImageRef), ⟨mkPh 1, "u1"⟩, ⟨mkPh 2, "u2"⟩].zip
            ["a", "b", "."]),
          [⟨mkPh 0, "u0"⟩, ⟨mkPh 1, "u1"⟩, ⟨mkPh 2, "u2"⟩]⟩
        [.ok, .fetchFail, .ok] 7 0
      = ((("Q " ++ imgTag 7 0 ++ "a") ++ "[Image]" ++ "b") ++ imgTag 7 1 ++ ".", 2) :=
  c4_image_failure_isolation "Q " "a" "b" "." "u0" "u1" "u2" 7
    (by decide) (by decide) (by decide) (by decide)

/-- C5 counterexample: with options `a`, `b` — all shorter than 5
characters — the native select branch still emits the blank prefix,
`_________ (a/b)`, not the bare inline join `a/b` the specification
describes for the short case. -/
theorem c5_native_select_counterexample :
    selectText (Node.elem "SELECT" [] [] [Node.elem "OPTION" [] [] [Node.text "a"],
        Node.elem "OPTION" [] [] [Node.text "b"]]) = "_________ (a/b)"
    ∧ selectText (Node.elem "SELECT" [] [] [Node.elem "OPTION" [] [] [Node.text "a"],
        Node.elem "OPTION" [] [] [Node.text "b"]])
      ≠ joinSep "/" (optTexts (Node.elem "SELECT" [] []
          [Node.elem "OPTION" [] [] [Node.text "a"],
           Node.elem "OPTION" [] [] [Node.text "b"]])) := by
  constructor
  · rfl
  · decide

/-- C5 (amended): the native select branch always renders with the blank
prefix: `_________` when there is no non-empty trimmed option text, and
otherwise `_________ (...)` with the option texts joined by `/` when every
one is shorter than 5 characters and by ` / ` when not. -/
theorem c5_native_select_format (n : Node) :
    (optTexts n = [] → selectText n = "_________")
    ∧ (optTexts n ≠ [] → (optTexts n).all (fun o => o.length < 5) = true →
        selectText n = "_________ (" ++ joinSep "/" (optTexts n) ++ ")")
    ∧ ((optTexts n).all (fun o => o.length < 5) = false →
        selectText n = "_________ (" ++ joinSep " / " (optTexts n) ++ ")") := by
  have hsel : selectText n
      = if optTexts n = [] then "_________"
        else if (optTexts n).all (fun o => o.length < 5) = true
          then "_________ (" ++ joinSep "/" (optTexts n) ++ ")"
          else "_________ (" ++ joinSep " / " (optTexts n) ++ ")" := rfl
  refine ⟨fun h => ?_, fun hne hall => ?_, fun hnall => ?_⟩
  · rw [hsel, if_pos h]
  · rw [hsel, if_neg hne, if_pos hall]
  · have hne : ¬ optTexts n = [] := by
      intro h
      rw [h] at hnall
      simp at hnall
    rw [hsel, if_neg hne, if_neg (by simp [hnall])]

theorem c5_native_select_format_witness :
    selectText (Node.elem "SELECT" [] [] [Node.elem "OPTION" [] [] [Node.text "x"],
        Node.elem "OPTION" [] [] [Node.text "y"]])
      = "_________ (" ++ joinSep "/" (optTexts (Node.elem "SELECT" [] []
          [Node.elem "OPTION" [] [] [Node.text "x"],
           Node.elem "OPTION" [] [] [Node.text "y"]])) ++ ")" :=
  (c5_native_select_format _).2.1 (by decide) (by decide)

/-- The attribute fold of the table/cell serializers is the identity when
none of the listed attributes is present (truthy). -/
theorem attrFold_none (t : Node) :
    ∀ (names : List String) (a0 : String), (∀ name ∈ names, truthyAttr t name = none) →
      names.foldl (fun acc name => match truthyAttr t name with
        | some v => acc ++ " " ++ name ++ "=\"" ++ v ++ "\""
        | none => acc) a0 = a0 := by
  intro names
  induction names with
  | nil => intro a0 _; rfl
  | cons nm rest ih =>
    intro a0 h
    have hnm : truthyAttr t nm = none := h nm (List.mem_cons_self _ _)
    rw [List.foldl_cons, hnm]
    exact ih a0 (fun x hx => h x (List.mem_cons_of_mem _ hx))

/-- C6: the table serializer never injects default styling — the opening
table tag carries the original inline style verbatim (plus only the
allow-listed structural attributes, none here), an attribute-free table or
cell gets an empty attribute string, and a 2-row, 2-column table with no
attributes anywhere serializes to plain
`<table><tr><td>..</td><td>..</td></tr><tr>..</tr></table>`. -/
theorem c6_table_no_style_injection :
    (∀ (t : Node) (s : String), truthyAttr t "style" = some s →
        (∀ name ∈ ["rules", "cellpadding", "cellspacing", "border", "align"],
          truthyAttr t name = none) →
        buildTableAttrs t = " style=\"" ++ s ++ "\"")
    ∧ (∀ t : Node, truthyAttr t "style" = none →
        (∀ name ∈ ["rules", "cellpadding", "cellspacing", "border", "align"],
          truthyAttr t name = none) →
        buildTableAttrs t = "")
    ∧ (∀ c : Node, truthyAttr c "style" = none →
        (∀ name ∈ ["colspan", "rowspan", "align", "valign"],
          truthyAttr c name = none) →
        buildCellAttrs c = "")
    ∧ processTable (Node.elem "TABLE" [] []
        [Node.elem "TR" [] [] [tdCell "A1", tdCell "B1"],
         Node.elem "TR" [] [] [tdCell "A2", tdCell "B2"]]) [] 0
      = ("<table><tr><td>A1</td><td>B1</td></tr><tr><td>A2</td><td>B2</td></tr></table>",
         [], 0) := by
  refine ⟨fun t s hs hrest => ?_, fun t hs hrest => ?_, fun c hs hrest => ?_, ?_⟩
  · show ["rules", "cellpadding", "cellspacing", "border", "align"].foldl
        (fun acc name => match truthyAttr t name with
          | some v => acc ++ " " ++ name ++ "=\"" ++ v ++ "\""
          | none => acc)
        (match truthyAttr t "style" with
          | some v => " style=\"" ++ v ++ "\""
          | none => "") = " style=\"" ++ s ++ "\""
    rw [attrFold_none t _ _ hrest, hs]
  · show ["rules", "cellpadding", "cellspacing", "border", "align"].foldl
        (fun acc name => match truthyAttr t name with
          | some v => acc ++ " " ++ name ++ "=\"" ++ v ++ "\""
          | none => acc)
        (match truthyAttr t "style" with
          | some v => " style=\"" ++ v ++ "\""
          | none => "") = ""
    rw [attrFold_none t _ _ hrest, hs]
  · show ["colspan", "rowspan", "align", "valign"].foldl
        (fun acc name => match truthyAttr c name with
          | some v => acc ++ " " ++ name ++ "=\"" ++ v ++ "\""
          | none => acc)
        (match truthyAttr c "style" with
          | some v => " style=\"" ++ v ++ "\""
          | none => "") = ""
    rw [attrFold_none c _ _ hrest, hs]
  · decide

theorem c6_table_no_style_injection_witness :
    buildTableAttrs (Node.elem "TABLE" [] [("style", "width: 50%")] [])
      = " style=\"" ++ "width: 50%" ++ "\""
    ∧ buildCellAttrs (tdCell "x") = "" :=
  ⟨c6_table_no_style_injection.1 _ "width: 50%" rfl (by decide),
   c6_table_no_style_injection.2.2.1 _ rfl (by decide)⟩

/-- C7 counterexample: for `<div><p>Solve <mjx-container data-tex="x^2">
...</mjx-container></p></div>` the extracted content is not the bare
`Solve \(x^2\)` the specification claims: the paragraph break pushed for
the block elements is converted to `<br><br>` before the final trim, so it
is not trimmed away. -/
theorem c7_inline_math_counterexample :
    (extractContent (Node.elem "DIV" [] [] [Node.elem "P" [] [] [Node.text "Solve ",
        Node.elem "MJX-CONTAINER" [] [("data-tex", "x^2")] [Node.text "x2"]]])
        .paren).content
      ≠ "Solve \\(x^2\\)" := by
  decide

/-- C7 (amended): for the same input tree the extracted content is exactly
`Solve \(x^2\)<br><br>` — inline math delimiters around the stored source,
and a trailing paragraph-break markup pair from the enclosing block
elements. -/
theorem c7_inline_math_scenario :
    (extractContent (Node.elem "DIV" [] [] [Node.elem "P" [] [] [Node.text "Solve ",
        Node.elem "MJX-CONTAINER" [] [("data-tex", "x^2")] [Node.text "x2"]]])
        .paren).content
      = "Solve \\(x^2\\)<br><br>" := by
  decide

/-- C8 counterexample: an `mjx-container` with no resolvable source and no
text content makes the raw-text fallback of the math branch append the empty
string, so not every fragment the walker appends is non-empty. -/
theorem c8_nonempty_counterexample :
    ¬ partsNE (walkNodes (Node.elem "DIV" [] [] [Node.elem "MJX-CONTAINER" [] [] []])
        none (mainWalkConfig .paren false) ⟨[], [], 0⟩) := by
  intro h
  exact h "" (by decide) rfl

/-- C8 (amended): provided every math container in the subtree has non-empty
text content (which rules out the empty raw-text fallback), every fragment
the walker appends is non-empty; in particular whitespace-only text nodes
are dropped before insertion. -/
theorem c8_nonempty_fragments (n : Node) (prev : Option Node) (cfg : WalkConfig)
    (st : WalkState) (hm : mathTextOk n) (h : partsNE st) :
    partsNE (walkNodes n prev cfg st) :=
  walkNodesF_partsNE (nsize n) n prev cfg st hm h

theorem c8_nonempty_fragments_witness :
    partsNE (walkNodes (Node.elem "P" [] [] [Node.text "   ", Node.text " hi "]) none
        (mainWalkConfig .paren false) ⟨[], [], 0⟩) :=
  c8_nonempty_fragments _ none _ _ (by unfold mathTextOk; decide)
    (by unfold partsNE; decide)

/-- C9: the free-response hide/restore around screenshot capture follows
scoped acquire/restore discipline — the capture runs against the hidden
(cleared) blocks, and the saved contents are restored on every exit path,
whether the capture returns or throws. -/
theorem c9_capture_restores_on_all_paths (blocks : List String)
    (shot : List String → Except String String) :
    (captureElement blocks shot).1 = shot (blocks.map (fun _ => ""))
    ∧ (captureElement blocks shot).2 = blocks := by
  have hcap : captureElement blocks shot
      = (shot (blocks.map (fun _ => "")), restoreBlocks blocks (blocks.map (fun _ => ""))) := by
    show (match shot (blocks.map (fun _ => "")) with
      | Except.ok png => ((Except.ok png : Except String String),
          restoreBlocks blocks (blocks.map (fun _ => "")))
      | Except.error e => (Except.error e,
          restoreBlocks blocks (blocks.map (fun _ => ""))))
      = (shot (blocks.map (fun _ => "")), restoreBlocks blocks (blocks.map (fun _ => "")))
    cases shot (blocks.map (fun _ => "")) <;> rfl
  rw [hcap]
  exact ⟨rfl, restoreBlocks_hidden blocks⟩

/-- C10: an `img` element whose `src` attribute is present but empty emits
no text fragment and records no `ImageRef` — the image branch requires a
truthy (non-empty) value, so the walker leaves the state unchanged.  The two
Boolean hypotheses exclude the unrelated free-response and select-list
branches that dispatch before the image branch. -/
theorem c10_empty_src_img_dropped (classes : List String)
    (attrs : List (String × String)) (children : List Node) (prev : Option Node)
    (cfg : WalkConfig) (st : WalkState)
    (hid : startsWithS (idOf (Node.elem "IMG" classes attrs children))
      "freeResponseTextbox" = false)
    (hsl : hasClass (Node.elem "IMG" classes attrs children) "selectList" = false)
    (hsrc : getAttrN (Node.elem "IMG" classes attrs children) "src" = some "") :
    walkNodes (Node.elem "IMG" classes attrs children) prev cfg st = st := by
  show walkNodesF (nsizeL children + 1) (Node.elem "IMG" classes attrs children) prev cfg st
    = st
  rw [walkNodesF_succ]
  simp only [walkStep]
  split
  · rfl
  split
  · rfl
  split
  · rfl
  split
  · rename_i hcond
    rw [hid] at hcond
    exact absurd hcond Bool.false_ne_true
  split
  · rename_i hcond
    rw [hsl] at hcond
    exact absurd hcond Bool.false_ne_true
  split
  · rename_i hcond
    exact absurd hcond (by decide)
  split
  · rename_i hcond
    exact absurd hcond.2.1 (by decide)
  dsimp only [walkStepLate]
  rw [if_pos rfl, hsrc]
  dsimp only
  rw [if_neg (not_not_intro rfl)]

theorem c10_empty_src_img_dropped_witness :
    walkNodes (Node.elem "IMG" [] [("src", "")] []) none (mainWalkConfig .paren false)
        ⟨[], [], 0⟩ = ⟨[], [], 0⟩ :=
  c10_empty_src_img_dropped [] [("src", "")] [] none (mainWalkConfig .paren false)
    ⟨[], [], 0⟩ rfl rfl rfl
